import Mathlib

/-!
Verification development for the NetworkOptimizationModel repository.

The development shallowly embeds the parts of the code that the checked
properties speak about:

* `twoopt/linsmat.py`: `RowIndex` (mixed-radix position computation over a
  schema), the zeroing data interface, and `VirtHelper.t_to_l`;
* `twoopt/linsolv_planner.py`: `LinsolvPlanner.__make_eq_lhs_rhs`,
  `__make_eq`, `__init_bnd_matrix`, `__init_obj`;
* `twoopt/legacy_simulation.py`: operation stepping (`GenerateOp`,
  `StoreOp`, `ProcessOp`, `DropOp`), `Simulation.reset` and
  `Simulation.quality`;
* `twoopt/sim/sim.py`: `Simulation.l`.

Python floats are modelled as rationals, machine integers as naturals.
A Python `assert` failure (or an uncaught exception) is modelled as `none`
of an `Option` result.
-/

/-!
Helpers that the code imports from the module `ut.py`, which is not part of
the sources.  They are modelled from the specification.
-/

/-- Modelled from the spec: the repository's `ut.clamp` (module `ut.py` is
missing from the sources).  The Generate variant "injects up to
`planned/tl[l]` per step ... until `processed = planned`", i.e. the value is
confined to the closed interval between the given lower and upper limits;
call shape in the code is `ut.clamp(value, lower, upper)`. -/
def clamp (x lo hi : ℚ) : ℚ :=
  max lo (min x hi)

/-- Modelled from the spec: `ut.radix_cartesian_product` (module `ut.py` is
missing from the sources); per the spec, `radixMapIter(k1,…,km)` yields every
tuple of non-negative integers below the bounds in lexicographic order, the
last index varying fastest.  Specialised to three indices, as used for the
`(j, rho, l)` tuples of `x_eq`. -/
def allTriples (nJ nRho nL : Nat) : List (Nat × Nat × Nat) :=
  (List.range nJ).flatMap fun j =>
    (List.range nRho).flatMap fun rho =>
      (List.range nL).map fun l => (j, rho, l)

/-- Modelled from the spec: `ut.radix_cartesian_product` specialised to the
four indices `(j, i, rho, l)` of the transfer variable `x`. -/
def allQuads (nJ nI nRho nL : Nat) : List (Nat × Nat × Nat × Nat) :=
  (List.range nJ).flatMap fun j =>
    (List.range nI).flatMap fun i =>
      (List.range nRho).flatMap fun rho =>
        (List.range nL).map fun l => (j, i, rho, l)

/-- Python's `math.isclose(a, b, rel_tol, abs_tol)`:
`abs(a-b) <= max(rel_tol * max(abs(a), abs(b)), abs_tol)`, on rationals. -/
def misclose (rel abst a b : ℚ) : Prop :=
  |a - b| ≤ max (rel * max |a| |b|) abst

instance (rel abst a b : ℚ) : Decidable (misclose rel abst a b) := by
  unfold misclose; infer_instance

/-- Python's default `rel_tol` for `math.isclose`. -/
def relTolDefault : ℚ := 1 / 1000000000

/-!
Data store (`linsmat.py`): `PermissiveCsvBufferedDataProvider` /
`DictRamDataProvider` keep a map from `(VARIABLE, INDEX1, ..., INDEXN)` to a
float.  `ZeroingDataInterface.get_plain` and `.get` convert a missing-key
failure into `0.0`.
-/

/-- A data store: finitely many rows keyed by variable name and index tuple. -/
def DataStore : Type := List ((String × List Nat) × ℚ)

/-- First binding of a key in an association list (Python dict lookup). -/
def alookup {α : Type} : List (String × α) → String → Option α
  | [], _ => none
  | p :: rest, k => if p.1 = k then some p.2 else alookup rest k

/-- Lookup of a full `(variable, indices)` key in a data store. -/
def dsFind : DataStore → String → List Nat → Option ℚ
  | [], _, _ => none
  | r :: rest, v, idx =>
    if r.1.1 = v ∧ r.1.2 = idx then some r.2 else dsFind rest v idx

/-- The zeroing access path (`ZeroingDataInterface.get_plain` / `.get`):
a missing key yields `0.0`. -/
def getZero (d : DataStore) (v : String) (idx : List Nat) : ℚ :=
  (dsFind d v idx).getD 0

/-!
`RowIndex` (`linsmat.py`, lines 24-122).  The class holds `indices` (a dict
from index name to bound) and `variables` (a dict from variable name to its
ordered index-name list); `__post_init__` derives `radix_maps` (per-variable
bound lists) and `radix_mult_vectors` (suffix products).  The embedding keeps
the `from_zero = True` configuration, which is what
`RowIndex.make_from_schema` — the only constructor used by the planner —
produces.
-/

structure RowIndex : Type where
  indices : List (String × Nat)
  vars : List (String × List String)

/-- Bound of an index name: `self.indices[index]` (with a dummy `0` default;
well-formedness requires presence). -/
def RowIndex.bound (ri : RowIndex) (k : String) : Nat :=
  (alookup ri.indices k).getD 0

/-- Declared variable names, in declaration order (`self.variables.keys()`). -/
def RowIndex.varKeys (ri : RowIndex) : List String :=
  ri.vars.map Prod.fst

/-- Ordered index names of a variable (`self.variables[var]`). -/
def RowIndex.varIdx (ri : RowIndex) (v : String) : List String :=
  (alookup ri.vars v).getD []

/-- The radix map of a variable (`self.radix_maps[var]`): its index bounds in
declared index order. -/
def RowIndex.radixMap (ri : RowIndex) (v : String) : List Nat :=
  (ri.varIdx v).map ri.bound

/-- Value of a mixed-radix numeral: digit times suffix product of the radices,
summed — exactly `sum(radix_number[i] * radix_mult_vectors[var][i])` where
`radix_mult_vectors` holds the suffix products built in `__post_init__`. -/
def mixedVal : List Nat → List Nat → Nat
  | d :: ds, _ :: ms => d * ms.prod + mixedVal ds ms
  | _, _ => 0

/-- The digits of a call's index assignment read off in declared index order
(`_to_mixed_radix_number`). -/
def digitsOf (idx : List (String × Nat)) (ks : List String) : List Nat :=
  ks.map fun k => (alookup idx k).getD 0

/-- Total row length (`get_row_len`): sum over variables of the product of
their radix maps. -/
def RowIndex.get_row_len (ri : RowIndex) : Nat :=
  (ri.varKeys.map fun v => (ri.radixMap v).prod).sum

/-- Python's `list.index`: position of the first occurrence. -/
def idxOf : List String → String → Nat
  | [], _ => 0
  | k :: rest, v => if k = v then 0 else idxOf rest v + 1

/-- The precedence test `_check_precedence(var_a, var_b)`: `var_a` appears
before `var_b` in the declaration order. -/
def RowIndex.precedes (ri : RowIndex) (a b : String) : Prop :=
  idxOf ri.varKeys a < idxOf ri.varKeys b

instance (ri : RowIndex) (a b : String) : Decidable (ri.precedes a b) := by
  unfold RowIndex.precedes; infer_instance

/-- One summand of `get_pos`'s `map_var`: the queried variable contributes its
mixed-radix value, a variable that precedes it contributes `0`, any other
variable contributes the product of its radix map. -/
def RowIndex.contrib (ri : RowIndex) (v : String) (idx : List (String × Nat))
    (u : String) : Nat :=
  if u = v then mixedVal (digitsOf idx (ri.varIdx v)) (ri.radixMap v)
  else if ri.precedes u v then 0
  else (ri.radixMap u).prod

/-- The position computed by `get_pos` once its assertions have passed. -/
def RowIndex.posUnchecked (ri : RowIndex) (v : String)
    (idx : List (String × Nat)) : Nat :=
  (ri.varKeys.map (ri.contrib v idx)).sum

/-- The assertions of `get_pos` (lines 83-85 of `linsmat.py`): the variable is
declared, the supplied key set equals the variable's declared index set, and
every supplied value `x` satisfies `0 ≤ x ≤ bound` — the code's range check
uses `<=` against the bound on both sides. -/
def RowIndex.argsOk (ri : RowIndex) (v : String)
    (idx : List (String × Nat)) : Prop :=
  v ∈ ri.varKeys ∧
  (∀ k ∈ idx.map Prod.fst, k ∈ ri.varIdx v) ∧
  (∀ k ∈ ri.varIdx v, k ∈ idx.map Prod.fst) ∧
  (∀ p ∈ idx, (alookup ri.indices p.1).isSome ∧ p.2 ≤ ri.bound p.1)

instance (ri : RowIndex) (v : String) (idx : List (String × Nat)) :
    Decidable (ri.argsOk v idx) := by
  unfold RowIndex.argsOk; infer_instance

/-- `RowIndex.get_pos`: `none` models a failed assertion. -/
def RowIndex.get_pos (ri : RowIndex) (v : String)
    (idx : List (String × Nat)) : Option Nat :=
  if ri.argsOk v idx then some (ri.posUnchecked v idx) else none

/-- Well-formedness of a `RowIndex` as produced by `make_from_schema` from a
schema: variable names are distinct (they are Python dict keys), each
variable's index-name list has no repetition, and every used index name has a
bound. -/
def RowIndex.WF (ri : RowIndex) : Prop :=
  ri.varKeys.Nodup ∧
  (∀ u ∈ ri.vars, (u.2 : List String).Nodup) ∧
  (∀ u ∈ ri.vars, ∀ k ∈ u.2, (alookup ri.indices k).isSome)

instance (ri : RowIndex) : Decidable ri.WF := by
  unfold RowIndex.WF; infer_instance

/-- In-range digits for a variable: one digit per declared index, each
strictly below its bound (the index domain `[0, bound)` of the schema). -/
def RowIndex.okDigits (ri : RowIndex) (v : String) (ds : List Nat) : Prop :=
  List.Forall₂ (fun d k => d < ri.bound k) ds (ri.varIdx v)

/-- The example from the `RowIndex.__post_init__` docstring: indices
`{j: 2, rho: 3}`, variables `{x: [j, rho], y: [j]}`. -/
def exRowIndex : RowIndex :=
  { indices := [("j", 2), ("rho", 3)]
    vars := [("x", ["j", "rho"]), ("y", ["j"])] }

/-- Intrinsic size of a `variables` entry: the product of its index bounds. -/
def entrySize (ri : RowIndex) (u : String × List String) : Nat :=
  (u.2.map ri.bound).prod

/-- Offset of a variable's block: the summed sizes of the entries that follow
the variable's entry in declaration order (this is what `get_pos`'s
`map_var` sum evaluates to; see `posUnchecked_eq_block`). -/
def blockOffset (ri : RowIndex) : List (String × List String) → String → Nat
  | [], _ => 0
  | u :: rest, v =>
    if u.1 = v then (rest.map (entrySize ri)).sum else blockOffset ri rest v

/-!
The planner's row index (`LinsolvPlanner.__post_init__`, line 35):
`RowIndex.make_from_schema(schema, ["y", "x", "z", "g"])` with the schema
shape enforced by `validate()` (lines 83-92): `x` has indices
`[j, i, rho, l]`, the variables `x_eq`, `y`, `g`, `z` have `[j, rho, l]`,
and the bounds of `i` and `j` coincide.
-/

/-- The planner's `RowIndex` for node bound `nJ` (= bound of both `i` and
`j`), load bound `nRho` and interval bound `nL`. -/
def plannerRI (nJ nRho nL : Nat) : RowIndex :=
  { indices := [("j", nJ), ("i", nJ), ("rho", nRho), ("l", nL)]
    vars := [("y", ["j", "rho", "l"]), ("x", ["j", "i", "rho", "l"]),
             ("z", ["j", "rho", "l"]), ("g", ["j", "rho", "l"])] }

/-- Keyword-argument list for a `(j, rho, l)`-indexed variable. -/
def eqIdx3 (j rho l : Nat) : List (String × Nat) :=
  [("j", j), ("rho", rho), ("l", l)]

/-- Keyword-argument list for the transfer variable `x`. -/
def eqIdx4 (j i rho l : Nat) : List (String × Nat) :=
  [("j", j), ("i", i), ("rho", rho), ("l", l)]

/-- Lexicographic rank of a `(j, rho, l)` tuple inside a variable's block. -/
def rank3 (nRho nL j rho l : Nat) : Nat :=
  (j * nRho + rho) * nL + l

/-- Lexicographic rank of a `(j, i, rho, l)` tuple inside the `x` block. -/
def rank4 (nJ nRho nL j i rho l : Nat) : Nat :=
  ((j * nJ + i) * nRho + rho) * nL + l

/-- Size of a `(j, rho, l)`-indexed variable's block. -/
def sB (nJ nRho nL : Nat) : Nat := nJ * (nRho * nL)

/-- Size of the `x` block. -/
def sX (nJ nRho nL : Nat) : Nat := nJ * (nJ * (nRho * nL))

/-- Position of `g[j, rho, l]` in the planner's row (derived closed form). -/
def posG (nJ nRho nL j rho l : Nat) : Nat := rank3 nRho nL j rho l

/-- Position of `z[j, rho, l]` in the planner's row (derived closed form). -/
def posZ (nJ nRho nL j rho l : Nat) : Nat :=
  sB nJ nRho nL + rank3 nRho nL j rho l

/-- Position of `x[j, i, rho, l]` in the planner's row (derived closed
form). -/
def posX (nJ nRho nL j i rho l : Nat) : Nat :=
  2 * sB nJ nRho nL + rank4 nJ nRho nL j i rho l

/-- Position of `y[j, rho, l]` in the planner's row (derived closed form). -/
def posY (nJ nRho nL j rho l : Nat) : Nat :=
  2 * sB nJ nRho nL + sX nJ nRho nL + rank3 nRho nL j rho l

/-- A sequence of `vec[pos] = val` array assignments (`numpy` style), applied
left to right. -/
def applyAssignments {α : Type} (vec : List α) (ps : List (Nat × α)) : List α :=
  ps.foldl (fun v q => v.set q.1 q.2) vec

/-- `LinsolvPlanner.__make_eq_lhs_rhs` (lines 41-66): one balance equation.
The coefficient vector starts as `np.zeros(row_len)`; then `g`, `y`, `z` at
`(j, rho, l)` are set to `1`, for `l > 0` the previous-interval `y` is set to
`-1`, and for every node `i ≠ j` the inbound transfer `x[i, j, rho, l]` is
set to `-1` and the outbound `x[j, i, rho, l]` to `1`.  The right-hand side
is the data store's `x_eq[j, rho, l]` (through the zeroing access path).
A failing `get_pos` assertion yields `none`. -/
def makeEqLhsRhs (d : DataStore) (nJ nRho nL j rho l : Nat) :
    Option (List ℚ × ℚ) := do
  let ri := plannerRI nJ nRho nL
  let gp ← ri.get_pos "g" (eqIdx3 j rho l)
  let yp ← ri.get_pos "y" (eqIdx3 j rho l)
  let zp ← ri.get_pos "z" (eqIdx3 j rho l)
  let prev ← if 0 < l then do
      let ypp ← ri.get_pos "y" (eqIdx3 j rho (l - 1))
      pure [(ypp, (-1 : ℚ))]
    else pure []
  let xs ← (List.range nJ).mapM fun i =>
    if i = j then pure []
    else do
      let xin ← ri.get_pos "x" (eqIdx4 i j rho l)
      let xout ← ri.get_pos "x" (eqIdx4 j i rho l)
      pure [(xin, (-1 : ℚ)), (xout, (1 : ℚ))]
  pure (applyAssignments (List.replicate ri.get_row_len (0 : ℚ))
          ([(gp, (1 : ℚ)), (yp, 1), (zp, 1)] ++ prev ++ xs.flatten),
        getZero d "x_eq" [j, rho, l])

/-- `LinsolvPlanner.__make_eq` (lines 68-81): one equation per `(j, rho, l)`
tuple of `x_eq`'s index domain, in the iteration order of
`radix_map_iter_var_dict`. -/
def makeEq (d : DataStore) (nJ nRho nL : Nat) : Option (List (List ℚ × ℚ)) :=
  (allTriples nJ nRho nL).mapM fun t => makeEqLhsRhs d nJ nRho nL t.1 t.2.1 t.2.2

/-- Claim-side description of one balance equation's coefficients: `+1` at
the positions of `g`, `y` and `z` at `(j, rho, l)`, `-1` at the position of
`y[j, rho, l-1]` when `l > 0`, `+1` at each outbound transfer position,
`-1` at each inbound transfer position, `0` everywhere else. -/
def eqCoeff (nJ nRho nL j rho l p : Nat) : ℚ :=
  if p = posG nJ nRho nL j rho l ∨ p = posY nJ nRho nL j rho l ∨
      p = posZ nJ nRho nL j rho l then 1
  else if 0 < l ∧ p = posY nJ nRho nL j rho (l - 1) then -1
  else if ∃ i < nJ, i ≠ j ∧ p = posX nJ nRho nL j i rho l then 1
  else if ∃ i < nJ, i ≠ j ∧ p = posX nJ nRho nL i j rho l then -1
  else 0

/-- `LinsolvPlanner.__init_bnd_matrix` (lines 94-110): every position starts
with bounds `[0, inf]` (modelled as `(0, none)`); then for the variable pairs
`(x, psi)`, `(y, v)`, `(g, phi)` — the `zip` of `_NEQ_VAR_ORDER` with
`_NEQ_VAR_ORDER_RHS` — the upper bound at each instance's position is
overwritten with the zeroing data interface's value for the capacity
variable at the same plain indices.  The lower bound is never touched.
`z` positions are never written, keeping `(0, inf)`. -/
def initBndMatrix (d : DataStore) (nJ nRho nL : Nat) :
    Option (List (ℚ × Option ℚ)) := do
  let ri := plannerRI nJ nRho nL
  let xs ← (allQuads nJ nJ nRho nL).mapM fun q => do
    let p ← ri.get_pos "x" (eqIdx4 q.1 q.2.1 q.2.2.1 q.2.2.2)
    pure (p, getZero d "psi" [q.1, q.2.1, q.2.2.1, q.2.2.2])
  let ys ← (allTriples nJ nRho nL).mapM fun t => do
    let p ← ri.get_pos "y" (eqIdx3 t.1 t.2.1 t.2.2)
    pure (p, getZero d "v" [t.1, t.2.1, t.2.2])
  let gs ← (allTriples nJ nRho nL).mapM fun t => do
    let p ← ri.get_pos "g" (eqIdx3 t.1 t.2.1 t.2.2)
    pure (p, getZero d "phi" [t.1, t.2.1, t.2.2])
  pure (applyAssignments
          (List.replicate ri.get_row_len ((0 : ℚ), (none : Option ℚ)))
          ((xs ++ ys ++ gs).map fun q => (q.1, ((0 : ℚ), some q.2))))

/-- The absolute tolerance `1e-6` used by `__init_obj`'s weight checks. -/
def absTolObj : ℚ := 1 / 1000000

/-- `LinsolvPlanner.__init_obj` (lines 112-127): the objective vector holds
`alpha_g = -alpha_0` at every `g` position and `alpha_z = alpha_1` at every
`z` position, `0` elsewhere; construction fails (assert) when either weight
is within `1e-6` of zero. -/
def initObj (d : DataStore) (nJ nRho nL : Nat) : Option (List ℚ) := do
  let ri := plannerRI nJ nRho nL
  let ag := -(getZero d "alpha_0" [])
  let az := getZero d "alpha_1" []
  if misclose relTolDefault absTolObj ag 0 ∨ misclose relTolDefault absTolObj az 0 then
    none
  else do
    let ps ← (allTriples nJ nRho nL).mapM fun t => do
      let pg ← ri.get_pos "g" (eqIdx3 t.1 t.2.1 t.2.2)
      let pz ← ri.get_pos "z" (eqIdx3 t.1 t.2.1 t.2.2)
      pure [(pg, ag), (pz, az)]
    pure (applyAssignments (List.replicate ri.get_row_len (0 : ℚ)) ps.flatten)

/-!
`Simulation.quality` (`legacy_simulation.py`, lines 405-423): asserts
`math.isclose(alpha_g + alpha_z, 1.0)` with default tolerances, then returns
`alpha_g * (sum of processed amounts of process ops) - alpha_z * (sum of
processed amounts of drop ops)`.
-/

/-- `Simulation.quality`, with the two resolved weights and the lists of
`amount_processed` values of the process and drop operations as inputs;
`none` models the assertion failure. -/
def quality (alpha_g alpha_z : ℚ) (processed dropped : List ℚ) : Option ℚ :=
  if misclose relTolDefault 0 (alpha_g + alpha_z) 1 then
    some (alpha_g * processed.sum - alpha_z * dropped.sum)
  else none

/-!
Interval lookup.  `VirtHelper.__init_duration` (lines 682-688) accumulates
the prefix sums of `tl` into `__tl_bounds`; `t_to_l` (lines 693-696) scans
them and returns the first interval whose bound exceeds `t`, implicitly
returning `None` past the end.  `sim/sim.py`'s `Simulation.l` (lines
101-108) recomputes the running sum inline.
-/

/-- The `__tl_bounds` accumulation of `VirtHelper.__init_duration`. -/
def tlBoundsAux (acc : ℚ) : List ℚ → List ℚ
  | [] => []
  | d :: rest => (acc + d) :: tlBoundsAux (acc + d) rest

/-- Prefix-sum bounds of the interval durations. -/
def tlBounds (tl : List ℚ) : List ℚ := tlBoundsAux 0 tl

/-- `VirtHelper.t_to_l`: index of the first bound strictly above `t`. -/
def t_to_l (tl : List ℚ) (t : ℚ) : Option Nat :=
  (tlBounds tl).findIdx? fun b => decide (t < b)

/-- Helper loop of `sim/sim.py` `Simulation.l`. -/
def simLAux (t : ℚ) : ℚ → Nat → List ℚ → Option Nat
  | _, _, [] => none
  | acc, n, d :: rest =>
    if t < acc + d then some n else simLAux t (acc + d) (n + 1) rest

/-- `Simulation.l` of `sim/sim.py`: running sum of `tl`, returning the first
`l` with `now < sum`. -/
def simL (tl : List ℚ) (t : ℚ) : Option Nat := simLAux t 0 0 tl

/-- Total duration `Σ_k tl[k]`. -/
def tlDuration (tl : List ℚ) : ℚ := tl.sum

/-!
`GenerateOp` (`legacy_simulation.py`, lines 212-218).  `step` computes
`diff = clamp(proc_intensity_upper, 0, amount_planned - amount_processed)`,
overwrites the input container's amount with `diff` and adds `diff` to
`amount_processed`.  The op is constructed with
`proc_intensity_upper = VirtHelper.intensity_upper_generate`, i.e. the
planned arrival amount divided by the interval duration (lines 645-649 of
`linsmat.py`).
-/

/-- State owned by a `GenerateOp`: its accumulated `amount_processed` and the
amount of its input container. -/
structure GenState : Type where
  amount_processed : ℚ
  container : ℚ

/-- `VirtHelper.intensity_upper_generate`: planned amount over interval
duration. -/
def intensity_upper_generate (planned tlv : ℚ) : ℚ := planned / tlv

/-- One `GenerateOp.step`. -/
def generateStep (planned upper : ℚ) (s : GenState) : GenState :=
  let diff := clamp upper 0 (planned - s.amount_processed)
  { amount_processed := s.amount_processed + diff, container := diff }

/-- `n` repetitions of `GenerateOp.step`. -/
def generateIter (planned upper : ℚ) : Nat → GenState → GenState
  | 0, s => s
  | n + 1, s => generateIter planned upper n (generateStep planned upper s)

/-!
Concrete two-step simulation instance for the determinism check
(`legacy_simulation.py`, `Simulation`).  One node, one load, a single
structural-stability interval of duration 2 (so the `run` loop performs two
steps), noise and op shuffling off.  The store below gives the planner
output and capacities; with one node no transfer op is created
(`indices_transfer_is_connected` is false for `i == j`), and the simulation
owns one generate, one store, one process and one drop op, one shared input
container for `(j, rho, l) = (0, 0, 0)` and one processed-memory container
for `(j, rho) = (0, 0)`.
-/

/-- Data store of the concrete simulation instance. -/
def c7Store : DataStore :=
  [(("x_eq", [0, 0, 0]), 10), (("y", [0, 0, 0]), 1),
   (("mm_v", [0, 0]), 10), (("m_v", [0, 0, 0]), 1),
   (("tl", [0]), 2), (("alpha_0", []), 1 / 2), (("alpha_1", []), 1 / 2)]

/-- Interval durations of the instance (`tl`). -/
def c7Tl : List ℚ := [getZero c7Store "tl" [0]]

/-- Total duration (`VirtHelper.duration`, the last `__tl_bounds` entry). -/
def c7Duration : ℚ := ((tlBounds c7Tl).getLast?).getD 0

/-- `GenerateOp.amount_planned` = `x_eq[0,0,0]`. -/
def c7GenPlanned : ℚ := getZero c7Store "x_eq" [0, 0, 0]

/-- `GenerateOp.proc_intensity_upper` = `x_eq[0,0,0] / tl[0]`. -/
def c7GenUpper : ℚ := intensity_upper_generate c7GenPlanned (getZero c7Store "tl" [0])

/-- `StoreOp.amount_planned` = `y[0,0,0]`. -/
def c7StorePlanned : ℚ := getZero c7Store "y" [0, 0, 0]

/-- `StoreOp.proc_intensity_fraction` = `m_v[0,0,0]`. -/
def c7StoreFrac : ℚ := getZero c7Store "m_v" [0, 0, 0]

/-- `StoreOp.proc_intensity_upper` = `mm_v[0,0]` (indices `j, l`). -/
def c7StoreUpper : ℚ := getZero c7Store "mm_v" [0, 0]

/-- `ProcessOp.amount_planned` = `g[0,0,0]` (absent, so `0`). -/
def c7ProcPlanned : ℚ := getZero c7Store "g" [0, 0, 0]

/-- `ProcessOp.proc_intensity_fraction` = `m_phi[0,0,0]` (absent, so `0`). -/
def c7ProcFrac : ℚ := getZero c7Store "m_phi" [0, 0, 0]

/-- `ProcessOp.proc_intensity_upper` = `mm_phi[0,0]` (absent, so `0`). -/
def c7ProcUpper : ℚ := getZero c7Store "mm_phi" [0, 0]

/-- `Operation.amount_proc_available` with noise disabled (`useNoise` off, so
`noise()` contributes `0`): clamp the remaining planned amount between the
intensity limits scaled by the fraction and `dt`, then clamp by the stash and
the input container's amount.  The `math.isclose(lower, 0.0)` test uses the
default tolerances. -/
def amount_proc_available (planned processed frac upper lower stash input dt : ℚ) : ℚ :=
  let diff_planned := planned - processed
  let amount_step_lower :=
    if misclose relTolDefault 0 lower 0 then 0 else (lower * frac + 0) * dt
  let amount_step_upper := (upper * frac + 0) * dt
  let amount_step := clamp diff_planned amount_step_lower amount_step_upper
  clamp amount_step (-stash) input

/-- Complete state of the concrete simulation: the global clock, the single
input container, the single processed-memory container, and each op's
`amount_processed`. -/
structure C7State : Type where
  t : ℚ
  l : Nat
  inputC : ℚ
  memC : ℚ
  genProcessed : ℚ
  storeProcessed : ℚ
  processProcessed : ℚ
  dropProcessed : ℚ

/-- Initial state: containers are created with amount `0`, all processed
amounts start at `0`, the clock starts at `t = 0`, `l = 0`. -/
def c7Init : C7State :=
  { t := 0, l := 0, inputC := 0, memC := 0, genProcessed := 0,
    storeProcessed := 0, processProcessed := 0, dropProcessed := 0 }

/-- `Simulation.reset` (lines 375-380): the clock returns to `t = 0, l = 0`
and every op resets its input container amount and its `amount_processed` to
`0`.  `Operation.reset` (lines 75-77) touches only `container_input` and
`amount_processed`; the processed-memory container (`containers_processed`)
is left as is. -/
def c7Reset (s : C7State) : C7State :=
  { s with t := 0, l := 0, inputC := 0, genProcessed := 0,
           storeProcessed := 0, processProcessed := 0, dropProcessed := 0 }

/-- `GenerateOp.step` of the instance (guarded by `is_current_l`):
overwrite the input container, accumulate `amount_processed`. -/
def c7GenOpStep (s : C7State) : C7State :=
  if s.l = 0 then
    let diff := clamp c7GenUpper 0 (c7GenPlanned - s.genProcessed)
    { s with inputC := diff, genProcessed := s.genProcessed + diff }
  else s

/-- `ProcessOp.step` of the instance. -/
def c7ProcessOpStep (s : C7State) : C7State :=
  if s.l = 0 then
    let a := amount_proc_available c7ProcPlanned s.processProcessed
      c7ProcFrac c7ProcUpper 0 0 s.inputC 1
    { s with inputC := s.inputC - a, processProcessed := s.processProcessed + a }
  else s

/-- `StoreOp.step` of the instance: inherit the processed-memory amount,
compute the step amount (kept for the teardown), move it out of the input. -/
def c7StoreOpStep (s : C7State) : C7State × ℚ :=
  if s.l = 0 then
    let proc0 := s.memC
    let a := amount_proc_available c7StorePlanned proc0 c7StoreFrac
      c7StoreUpper (-c7StoreUpper) proc0 s.inputC 1
    ({ s with inputC := s.inputC - a, storeProcessed := proc0 + a }, a)
  else (s, 0)

/-- `StoreOp.step_teardown` of the instance: refund a negative step amount,
then publish `amount_processed` into the processed-memory container. -/
def c7StoreOpTeardown (p : C7State × ℚ) : C7State :=
  let s := p.1
  if s.l = 0 then
    if p.2 < 0 then
      let a2 := clamp p.2 (-s.inputC) 0
      { s with inputC := s.inputC + a2,
               storeProcessed := s.storeProcessed - a2,
               memC := s.storeProcessed - a2 }
    else { s with memC := s.storeProcessed }
  else s

/-- `DropOp.step` of the instance: absorb the whole input container. -/
def c7DropOpStep (s : C7State) : C7State :=
  if s.l = 0 then
    { s with dropProcessed := s.dropProcessed + s.inputC, inputC := 0 }
  else s

/-- `SimGlobal.t_inc`: advance the clock; when not yet finished, recompute
the interval from `t_to_l`. -/
def c7TInc (s : C7State) : C7State :=
  let t2 := s.t + 1
  if c7Duration <= t2 then { s with t := t2 }
  else { s with t := t2, l := (t_to_l c7Tl t2).getD s.l }

/-- One `Simulation.step` (lines 382-399) of the instance, with
`shuffleOps` off so the payload order is the deterministic list order:
generate ops, then process ops, then (no) transfer ops, then store ops,
then transfer/store teardowns, then drop ops, then `SimGlobal.t_inc`. -/
def c7Step (s : C7State) : C7State :=
  c7TInc (c7DropOpStep (c7StoreOpTeardown (c7StoreOpStep
    (c7ProcessOpStep (c7GenOpStep s)))))

/-- `Simulation.run`: step while not `is_finished()` (fuelled; fuel 3 more
than suffices for the duration-2, `dt = 1` instance). -/
def c7Run : Nat → C7State → C7State
  | 0, s => s
  | n + 1, s => if c7Duration ≤ s.t then s else c7Run n (c7Step s)

/-- `Simulation.quality` of the instance: the weights come from `alpha_0`
and `alpha_1` of the store; process ops contribute `processProcessed`, drop
ops `dropProcessed`. -/
def c7Quality (s : C7State) : Option ℚ :=
  quality (getZero c7Store "alpha_0" []) (getZero c7Store "alpha_1" [])
    [s.processProcessed] [s.dropProcessed]

/-- Store used to separate the capacity variable names `v` and `v_mem`: it
holds a `v_mem` entry but no `v` entry. -/
def c4Store : DataStore := [(("v_mem", [0, 0, 0]), 5)]

/-!
Theorems.  First the evaluation lemmas for the concrete simulation instance,
then the generic `RowIndex` theory, then the planner, and finally the
remaining per-claim results.
-/

theorem c7GenPlanned_eval : c7GenPlanned = 10 := rfl

theorem c7GenUpper_eval : c7GenUpper = 5 := by
  rw [c7GenUpper, intensity_upper_generate, c7GenPlanned_eval,
    show getZero c7Store "tl" [0] = 2 from rfl]
  norm_num

theorem c7Duration_eval : c7Duration = 2 := by
  rw [c7Duration, c7Tl, show getZero c7Store "tl" [0] = 2 from rfl]
  norm_num [tlBounds, tlBoundsAux]

theorem c7Tl_eval : c7Tl = [2] := by
  rw [c7Tl, show getZero c7Store "tl" [0] = 2 from rfl]

theorem c7Gen_a : c7GenOpStep ⟨0, 0, 0, 0, 0, 0, 0, 0⟩ = ⟨0, 0, 5, 0, 5, 0, 0, 0⟩ := by
  norm_num [c7GenOpStep, clamp, c7GenPlanned_eval, c7GenUpper_eval]

theorem c7Process_a : c7ProcessOpStep ⟨0, 0, 5, 0, 5, 0, 0, 0⟩ = ⟨0, 0, 5, 0, 5, 0, 0, 0⟩ := by
  norm_num [c7ProcessOpStep, amount_proc_available, clamp, misclose, relTolDefault,
    show c7ProcPlanned = 0 from rfl, show c7ProcFrac = 0 from rfl, show c7ProcUpper = 0 from rfl]

theorem c7Store_a : c7StoreOpStep ⟨0, 0, 5, 0, 5, 0, 0, 0⟩ = (⟨0, 0, 4, 0, 5, 1, 0, 0⟩, 1) := by
  norm_num [c7StoreOpStep, amount_proc_available, clamp, misclose, relTolDefault,
    show c7StorePlanned = 1 from rfl, show c7StoreFrac = 1 from rfl, show c7StoreUpper = 10 from rfl]

theorem c7Teardown_a : c7StoreOpTeardown (⟨0, 0, 4, 0, 5, 1, 0, 0⟩, 1) = ⟨0, 0, 4, 1, 5, 1, 0, 0⟩ := by
  norm_num [c7StoreOpTeardown]

theorem c7Drop_a : c7DropOpStep ⟨0, 0, 4, 1, 5, 1, 0, 0⟩ = ⟨0, 0, 0, 1, 5, 1, 0, 4⟩ := by
  norm_num [c7DropOpStep]

theorem c7TInc_a : c7TInc ⟨0, 0, 0, 1, 5, 1, 0, 4⟩ = ⟨1, 0, 0, 1, 5, 1, 0, 4⟩ := by
  norm_num [c7TInc, c7Duration_eval, c7Tl_eval, t_to_l, tlBounds, tlBoundsAux, List.findIdx?,
    show getZero c7Store "tl" [0] = 2 from rfl]

theorem c7Step_1 : c7Step c7Init = ⟨1, 0, 0, 1, 5, 1, 0, 4⟩ := by
  rw [c7Step, show c7Init = (⟨0, 0, 0, 0, 0, 0, 0, 0⟩ : C7State) from rfl,
    c7Gen_a, c7Process_a, c7Store_a, c7Teardown_a, c7Drop_a, c7TInc_a]

theorem c7Gen_b : c7GenOpStep ⟨1, 0, 0, 1, 5, 1, 0, 4⟩ = ⟨1, 0, 5, 1, 10, 1, 0, 4⟩ := by
  norm_num [c7GenOpStep, clamp, c7GenPlanned_eval, c7GenUpper_eval]

theorem c7Process_b : c7ProcessOpStep ⟨1, 0, 5, 1, 10, 1, 0, 4⟩ = ⟨1, 0, 5, 1, 10, 1, 0, 4⟩ := by
  norm_num [c7ProcessOpStep, amount_proc_available, clamp, misclose, relTolDefault,
    show c7ProcPlanned = 0 from rfl, show c7ProcFrac = 0 from rfl, show c7ProcUpper = 0 from rfl]

theorem c7Store_b : c7StoreOpStep ⟨1, 0, 5, 1, 10, 1, 0, 4⟩ = (⟨1, 0, 5, 1, 10, 1, 0, 4⟩, 0) := by
  norm_num [c7StoreOpStep, amount_proc_available, clamp, misclose, relTolDefault,
    show c7StorePlanned = 1 from rfl, show c7StoreFrac = 1 from rfl, show c7StoreUpper = 10 from rfl]

theorem c7Teardown_b : c7StoreOpTeardown (⟨1, 0, 5, 1, 10, 1, 0, 4⟩, 0) = ⟨1, 0, 5, 1, 10, 1, 0, 4⟩ := by
  norm_num [c7StoreOpTeardown]

theorem c7Drop_b : c7DropOpStep ⟨1, 0, 5, 1, 10, 1, 0, 4⟩ = ⟨1, 0, 0, 1, 10, 1, 0, 9⟩ := by
  norm_num [c7DropOpStep]

theorem c7TInc_b : c7TInc ⟨1, 0, 0, 1, 10, 1, 0, 9⟩ = ⟨2, 0, 0, 1, 10, 1, 0, 9⟩ := by
  norm_num [c7TInc, c7Duration_eval]

theorem c7Step_2 : c7Step ⟨1, 0, 0, 1, 5, 1, 0, 4⟩ = ⟨2, 0, 0, 1, 10, 1, 0, 9⟩ := by
  rw [c7Step, c7Gen_b, c7Process_b, c7Store_b, c7Teardown_b, c7Drop_b, c7TInc_b]

theorem c7Gen_c : c7GenOpStep ⟨0, 0, 0, 1, 0, 0, 0, 0⟩ = ⟨0, 0, 5, 1, 5, 0, 0, 0⟩ := by
  norm_num [c7GenOpStep, clamp, c7GenPlanned_eval, c7GenUpper_eval]

theorem c7Process_c : c7ProcessOpStep ⟨0, 0, 5, 1, 5, 0, 0, 0⟩ = ⟨0, 0, 5, 1, 5, 0, 0, 0⟩ := by
  norm_num [c7ProcessOpStep, amount_proc_available, clamp, misclose, relTolDefault,
    show c7ProcPlanned = 0 from rfl, show c7ProcFrac = 0 from rfl, show c7ProcUpper = 0 from rfl]

theorem c7Store_c : c7StoreOpStep ⟨0, 0, 5, 1, 5, 0, 0, 0⟩ = (⟨0, 0, 5, 1, 5, 1, 0, 0⟩, 0) := by
  norm_num [c7StoreOpStep, amount_proc_available, clamp, misclose, relTolDefault,
    show c7StorePlanned = 1 from rfl, show c7StoreFrac = 1 from rfl, show c7StoreUpper = 10 from rfl]

theorem c7Teardown_c : c7StoreOpTeardown (⟨0, 0, 5, 1, 5, 1, 0, 0⟩, 0) = ⟨0, 0, 5, 1, 5, 1, 0, 0⟩ := by
  norm_num [c7StoreOpTeardown]

theorem c7Drop_c : c7DropOpStep ⟨0, 0, 5, 1, 5, 1, 0, 0⟩ = ⟨0, 0, 0, 1, 5, 1, 0, 5⟩ := by
  norm_num [c7DropOpStep]

theorem c7TInc_c : c7TInc ⟨0, 0, 0, 1, 5, 1, 0, 5⟩ = ⟨1, 0, 0, 1, 5, 1, 0, 5⟩ := by
  norm_num [c7TInc, c7Duration_eval, c7Tl_eval, t_to_l, tlBounds, tlBoundsAux, List.findIdx?,
    show getZero c7Store "tl" [0] = 2 from rfl]

theorem c7Step_3 : c7Step ⟨0, 0, 0, 1, 0, 0, 0, 0⟩ = ⟨1, 0, 0, 1, 5, 1, 0, 5⟩ := by
  rw [c7Step, c7Gen_c, c7Process_c, c7Store_c, c7Teardown_c, c7Drop_c, c7TInc_c]

theorem c7Gen_d : c7GenOpStep ⟨1, 0, 0, 1, 5, 1, 0, 5⟩ = ⟨1, 0, 5, 1, 10, 1, 0, 5⟩ := by
  norm_num [c7GenOpStep, clamp, c7GenPlanned_eval, c7GenUpper_eval]

theorem c7Process_d : c7ProcessOpStep ⟨1, 0, 5, 1, 10, 1, 0, 5⟩ = ⟨1, 0, 5, 1, 10, 1, 0, 5⟩ := by
  norm_num [c7ProcessOpStep, amount_proc_available, clamp, misclose, relTolDefault,
    show c7ProcPlanned = 0 from rfl, show c7ProcFrac = 0 from rfl, show c7ProcUpper = 0 from rfl]

theorem c7Store_d : c7StoreOpStep ⟨1, 0, 5, 1, 10, 1, 0, 5⟩ = (⟨1, 0, 5, 1, 10, 1, 0, 5⟩, 0) := by
  norm_num [c7StoreOpStep, amount_proc_available, clamp, misclose, relTolDefault,
    show c7StorePlanned = 1 from rfl, show c7StoreFrac = 1 from rfl, show c7StoreUpper = 10 from rfl]

theorem c7Teardown_d : c7StoreOpTeardown (⟨1, 0, 5, 1, 10, 1, 0, 5⟩, 0) = ⟨1, 0, 5, 1, 10, 1, 0, 5⟩ := by
  norm_num [c7StoreOpTeardown]

theorem c7Drop_d : c7DropOpStep ⟨1, 0, 5, 1, 10, 1, 0, 5⟩ = ⟨1, 0, 0, 1, 10, 1, 0, 10⟩ := by
  norm_num [c7DropOpStep]

theorem c7TInc_d : c7TInc ⟨1, 0, 0, 1, 10, 1, 0, 10⟩ = ⟨2, 0, 0, 1, 10, 1, 0, 10⟩ := by
  norm_num [c7TInc, c7Duration_eval]

theorem c7Step_4 : c7Step ⟨1, 0, 0, 1, 5, 1, 0, 5⟩ = ⟨2, 0, 0, 1, 10, 1, 0, 10⟩ := by
  rw [c7Step, c7Gen_d, c7Process_d, c7Store_d, c7Teardown_d, c7Drop_d, c7TInc_d]

theorem c7Run_succ (n : Nat) (s : C7State) (h : ¬ c7Duration ≤ s.t) :
    c7Run (n + 1) s = c7Run n (c7Step s) := by
  rw [c7Run, if_neg h]

theorem c7Run_stop (n : Nat) (s : C7State) (h : c7Duration ≤ s.t) :
    c7Run (n + 1) s = s := by
  rw [c7Run, if_pos h]

theorem c7Run1_eval : c7Run 3 c7Init = ⟨2, 0, 0, 1, 10, 1, 0, 9⟩ := by
  have h1 : c7Run 3 c7Init = c7Run 2 (c7Step c7Init) :=
    c7Run_succ 2 c7Init (by rw [c7Duration_eval]; norm_num [c7Init])
  rw [h1, c7Step_1]
  have h2 : c7Run 2 (⟨1, 0, 0, 1, 5, 1, 0, 4⟩ : C7State) =
      c7Run 1 (c7Step ⟨1, 0, 0, 1, 5, 1, 0, 4⟩) :=
    c7Run_succ 1 _ (by rw [c7Duration_eval]; norm_num)
  rw [h2, c7Step_2]
  exact c7Run_stop 0 _ (by rw [c7Duration_eval])

theorem c7Run2_eval :
    c7Run 3 (c7Reset (c7Run 3 c7Init)) = ⟨2, 0, 0, 1, 10, 1, 0, 10⟩ := by
  rw [c7Run1_eval, show c7Reset ⟨2, 0, 0, 1, 10, 1, 0, 9⟩ = ⟨0, 0, 0, 1, 0, 0, 0, 0⟩ from rfl]
  have h1 : c7Run 3 (⟨0, 0, 0, 1, 0, 0, 0, 0⟩ : C7State) =
      c7Run 2 (c7Step ⟨0, 0, 0, 1, 0, 0, 0, 0⟩) :=
    c7Run_succ 2 _ (by rw [c7Duration_eval]; norm_num)
  rw [h1, c7Step_3]
  have h2 : c7Run 2 (⟨1, 0, 0, 1, 5, 1, 0, 5⟩ : C7State) =
      c7Run 1 (c7Step ⟨1, 0, 0, 1, 5, 1, 0, 5⟩) :=
    c7Run_succ 1 _ (by rw [c7Duration_eval]; norm_num)
  rw [h2, c7Step_4]
  exact c7Run_stop 0 _ (by rw [c7Duration_eval])

/-- C7: with noise and op shuffling disabled, running the simulator twice on
the same planner output with a `reset` between the runs is claimed to yield
identical trajectories and quality.  On the embedded one-node instance the
first run has quality `-9/2` but the second run has quality `-5` (and a
different drop trajectory), because `Simulation.reset` does not clear the
processed-memory container that the store operation reads back on its first
step.  This refutes the claim: the code contradicts the specification's
determinism scenario S4. -/
theorem c7_reset_rerun_differs :
    c7Quality (c7Run 3 c7Init) = some (-(9 / 2)) ∧
    c7Quality (c7Run 3 (c7Reset (c7Run 3 c7Init))) = some (-5) ∧
    c7Quality (c7Run 3 c7Init) ≠ c7Quality (c7Run 3 (c7Reset (c7Run 3 c7Init))) ∧
    (c7Run 3 c7Init).dropProcessed ≠
      (c7Run 3 (c7Reset (c7Run 3 c7Init))).dropProcessed := by
  rw [c7Run2_eval, c7Run1_eval]
  refine ⟨?_, ?_, ?_, ?_⟩
  · norm_num [c7Quality, quality, misclose, relTolDefault,
      show getZero c7Store "alpha_0" [] = 1/2 from rfl,
      show getZero c7Store "alpha_1" [] = 1/2 from rfl]
  · norm_num [c7Quality, quality, misclose, relTolDefault,
      show getZero c7Store "alpha_0" [] = 1/2 from rfl,
      show getZero c7Store "alpha_1" [] = 1/2 from rfl]
  · norm_num [c7Quality, quality, misclose, relTolDefault,
      show getZero c7Store "alpha_0" [] = 1/2 from rfl,
      show getZero c7Store "alpha_1" [] = 1/2 from rfl]
  · norm_num

/-!
Generic theory of `RowIndex.get_pos`: the computed position decomposes into
a mixed-radix value plus a block offset, the map is injective on in-range
index tuples, and its image tiles the whole row.
-/

theorem alookup_cons_ne {α : Type} (p : String × α) (l : List (String × α))
    (k : String) (h : p.1 ≠ k) : alookup (p :: l) k = alookup l k := by
  simp [alookup, h]

theorem alookup_eq_of_mem {α : Type} :
    ∀ {l : List (String × α)}, (l.map Prod.fst).Nodup →
      ∀ {k : String} {a : α}, (k, a) ∈ l → alookup l k = some a := by
  intro l
  induction l with
  | nil => intro _ k a h; simp at h
  | cons p rest ih =>
    intro hnd k a h
    rw [List.map_cons, List.nodup_cons] at hnd
    rcases List.mem_cons.mp h with h1 | h1
    · subst h1; simp [alookup]
    · have hk : k ∈ rest.map Prod.fst := List.mem_map.mpr ⟨(k, a), h1, rfl⟩
      have hne : p.1 ≠ k := by
        intro he
        exact hnd.1 (he ▸ hk)
      rw [alookup_cons_ne p rest k hne]
      exact ih hnd.2 h1

theorem alookup_mem {α : Type} :
    ∀ {l : List (String × α)} {k : String} {a : α},
      alookup l k = some a → (k, a) ∈ l := by
  intro l
  induction l with
  | nil => intro k a h; simp [alookup] at h
  | cons p rest ih =>
    intro k a h
    by_cases hk : p.1 = k
    · rw [alookup, if_pos hk] at h
      rcases p with ⟨f, s⟩
      have hs : s = a := Option.some.inj h
      have hf : f = k := hk
      subst hs
      subst hf
      exact List.mem_cons_self _ _
    · rw [alookup_cons_ne p rest k hk] at h
      exact List.mem_cons_of_mem _ (ih h)

theorem digitsOf_zip :
    ∀ {ks : List String} {ds : List Nat}, ks.Nodup → ds.length = ks.length →
      digitsOf (ks.zip ds) ks = ds := by
  intro ks
  induction ks with
  | nil =>
    intro ds _ hlen
    have h0 : ds = [] := List.eq_nil_of_length_eq_zero (by simpa using hlen)
    subst h0
    rfl
  | cons k ks' ih =>
    intro ds hnd hlen
    cases ds with
    | nil => simp at hlen
    | cons d ds' =>
      have hk : k ∉ ks' := (List.nodup_cons.mp hnd).1
      unfold digitsOf
      rw [List.zip_cons_cons, List.map_cons]
      have h1 : (alookup ((k, d) :: ks'.zip ds') k).getD 0 = d := by
        simp [alookup]
      rw [h1]
      have h2 : (ks'.map fun x => (alookup ((k, d) :: ks'.zip ds') x).getD 0) =
          ks'.map fun x => (alookup (ks'.zip ds') x).getD 0 := by
        apply List.map_congr_left
        intro x hx
        rw [alookup_cons_ne _ _ _ (by rintro rfl; exact hk hx)]
      rw [h2]
      have h3 := @ih ds' (List.nodup_cons.mp hnd).2 (by simpa using hlen)
      unfold digitsOf at h3
      rw [h3]

theorem mixedVal_lt :
    ∀ {ds ms : List Nat}, List.Forall₂ (· < ·) ds ms →
      mixedVal ds ms < ms.prod := by
  intro ds ms h
  induction h with
  | nil => simp [mixedVal]
  | @cons d m ds' ms' hdm htail ih =>
    have h1 : mixedVal (d :: ds') (m :: ms') = d * ms'.prod + mixedVal ds' ms' := rfl
    rw [h1, List.prod_cons]
    calc d * ms'.prod + mixedVal ds' ms' < d * ms'.prod + ms'.prod := by omega
    _ = (d + 1) * ms'.prod := by ring
    _ ≤ m * ms'.prod := Nat.mul_le_mul_right _ (by omega)

theorem mulAdd_inj {P d d' v v' : Nat} (hv : v < P) (hv' : v' < P)
    (h : d * P + v = d' * P + v') : d = d' ∧ v = v' := by
  have hP : 0 < P := by omega
  have hd : d = d' := by
    have h1 : (d * P + v) / P = d := by
      rw [Nat.add_comm, Nat.add_mul_div_right _ _ hP, Nat.div_eq_of_lt hv]
      omega
    have h2 : (d' * P + v') / P = d' := by
      rw [Nat.add_comm, Nat.add_mul_div_right _ _ hP, Nat.div_eq_of_lt hv']
      omega
    rw [← h1, ← h2, h]
  exact ⟨hd, by subst hd; omega⟩

theorem mixedVal_inj :
    ∀ {ds ds' ms : List Nat}, List.Forall₂ (· < ·) ds ms →
      List.Forall₂ (· < ·) ds' ms → mixedVal ds ms = mixedVal ds' ms →
      ds = ds' := by
  intro ds ds' ms h
  induction h generalizing ds' with
  | nil =>
    intro h' _
    cases h'
    rfl
  | @cons d m ds0 ms0 hdm htail ih =>
    intro h' heq
    rcases List.forall₂_cons_right_iff.mp h' with ⟨d', ds0', hd', h0', rfl⟩
    have h1 : mixedVal (d :: ds0) (m :: ms0) = d * ms0.prod + mixedVal ds0 ms0 := rfl
    have h2 : mixedVal (d' :: ds0') (m :: ms0) = d' * ms0.prod + mixedVal ds0' ms0 := rfl
    rw [h1, h2] at heq
    have hj := mulAdd_inj (mixedVal_lt htail) (mixedVal_lt h0') heq
    rw [hj.1, ih h0' hj.2]

theorem mixedVal_surj :
    ∀ {ms : List Nat} {n : Nat}, n < ms.prod →
      ∃ ds, List.Forall₂ (· < ·) ds ms ∧ mixedVal ds ms = n := by
  intro ms
  induction ms with
  | nil =>
    intro n hn
    simp at hn
    exact ⟨[], List.Forall₂.nil, by simp [mixedVal, hn]⟩
  | cons m ms' ih =>
    intro n hn
    rw [List.prod_cons] at hn
    have hP : 0 < ms'.prod := by
      rcases Nat.eq_zero_or_pos ms'.prod with h | h
      · rw [h, Nat.mul_zero] at hn; omega
      · exact h
    have hmod : n % ms'.prod < ms'.prod := Nat.mod_lt _ hP
    obtain ⟨ds', hds', hval⟩ := ih hmod
    refine ⟨n / ms'.prod :: ds', List.Forall₂.cons ?_ hds', ?_⟩
    · exact (Nat.div_lt_iff_lt_mul hP).mpr (by omega)
    · have h1 : mixedVal (n / ms'.prod :: ds') (m :: ms') =
          n / ms'.prod * ms'.prod + mixedVal ds' ms' := rfl
      rw [h1, hval, Nat.mul_comm]
      exact Nat.div_add_mod n ms'.prod

theorem idxOf_cons_self (v : String) (l : List String) : idxOf (v :: l) v = 0 := by
  simp [idxOf]

theorem idxOf_cons_ne {k v : String} (l : List String) (h : k ≠ v) :
    idxOf (k :: l) v = idxOf l v + 1 := by
  simp [idxOf, h]

theorem idxOf_lt_of_mem : ∀ {l : List String} {v : String}, v ∈ l → idxOf l v < l.length := by
  intro l
  induction l with
  | nil => intro v h; simp at h
  | cons k rest ih =>
    intro v h
    by_cases hk : k = v
    · subst hk; rw [idxOf_cons_self]; simp
    · rw [idxOf_cons_ne rest hk, List.length_cons]
      have hm : v ∈ rest := by
        rcases List.mem_cons.mp h with h1 | h1
        · exact absurd h1.symm hk
        · exact h1
      exact Nat.succ_lt_succ (ih hm)

theorem idxOf_append_of_mem : ∀ {l₁ : List String} {v : String} (l₂ : List String),
    v ∈ l₁ → idxOf (l₁ ++ l₂) v = idxOf l₁ v := by
  intro l₁
  induction l₁ with
  | nil => intro v _ h; simp at h
  | cons k rest ih =>
    intro v l₂ h
    by_cases hk : k = v
    · subst hk; rw [List.cons_append, idxOf_cons_self, idxOf_cons_self]
    · have hm : v ∈ rest := by
        rcases List.mem_cons.mp h with h1 | h1
        · exact absurd h1.symm hk
        · exact h1
      rw [List.cons_append, idxOf_cons_ne _ hk, idxOf_cons_ne _ hk, ih l₂ hm]

theorem idxOf_append_of_not_mem : ∀ {l₁ : List String} {v : String} (l₂ : List String),
    v ∉ l₁ → idxOf (l₁ ++ l₂) v = l₁.length + idxOf l₂ v := by
  intro l₁
  induction l₁ with
  | nil => intro v l₂ _; simp
  | cons k rest ih =>
    intro v l₂ h
    have hk : k ≠ v := fun he => h (he ▸ List.mem_cons_self _ _)
    have hm : v ∉ rest := fun hr => h (List.mem_cons_of_mem _ hr)
    rw [List.cons_append, idxOf_cons_ne _ hk, ih l₂ hm, List.length_cons]
    omega

theorem varIdx_eq (ri : RowIndex) (hnd : ri.varKeys.Nodup) {v : String}
    {ks : List String} (hmem : (v, ks) ∈ ri.vars) : ri.varIdx v = ks := by
  rw [RowIndex.varIdx, alookup_eq_of_mem hnd hmem]
  rfl

theorem mem_nodup_key_eq {L : List (String × List String)}
    (hnd : (L.map Prod.fst).Nodup) {v : String} {ks ks' : List String}
    (h1 : (v, ks) ∈ L) (h2 : (v, ks') ∈ L) : ks = ks' := by
  have e1 := alookup_eq_of_mem hnd h1
  have e2 := alookup_eq_of_mem hnd h2
  rw [e1] at e2
  exact Option.some.inj e2

theorem blockOffset_split (ri : RowIndex) :
    ∀ {pre : List (String × List String)} {v : String} {ks : List String}
      (post : List (String × List String)), v ∉ pre.map Prod.fst →
      blockOffset ri (pre ++ (v, ks) :: post) v = (post.map (entrySize ri)).sum := by
  intro pre
  induction pre with
  | nil => intro v ks post _; simp [blockOffset]
  | cons u rest ih =>
    intro v ks post h
    have hu : u.1 ≠ v := by
      intro he
      exact h (he ▸ List.mem_map.mpr ⟨u, List.mem_cons_self _ _, rfl⟩)
    have hm : v ∉ rest.map Prod.fst := by
      intro hr
      rw [List.map_cons] at h
      exact h (List.mem_cons_of_mem _ hr)
    rw [List.cons_append, blockOffset, if_neg hu]
    exact ih post hm

theorem block_le (ri : RowIndex) :
    ∀ {L : List (String × List String)}, (L.map Prod.fst).Nodup →
      ∀ {v : String} {ks : List String}, (v, ks) ∈ L →
      blockOffset ri L v + entrySize ri (v, ks) ≤ (L.map (entrySize ri)).sum := by
  intro L
  induction L with
  | nil => intro _ v ks h; simp at h
  | cons u rest ih =>
    intro hnd v ks h
    rw [List.map_cons, List.nodup_cons] at hnd
    rw [List.map_cons, List.sum_cons]
    by_cases hv : u.1 = v
    · have hu : u = (v, ks) := by
        rcases List.mem_cons.mp h with h1 | h1
        · exact h1.symm
        · exact absurd (hv ▸ List.mem_map.mpr ⟨(v, ks), h1, hv ▸ rfl⟩) hnd.1
      rw [blockOffset, if_pos hv, hu]
      omega
    · have hm : (v, ks) ∈ rest := by
        rcases List.mem_cons.mp h with h1 | h1
        · exact absurd (congrArg Prod.fst h1.symm) hv
        · exact h1
      rw [blockOffset, if_neg hv]
      have := ih hnd.2 hm
      omega

theorem block_partition (ri : RowIndex) :
    ∀ {L : List (String × List String)}, (L.map Prod.fst).Nodup →
      ∀ {p : Nat}, p < (L.map (entrySize ri)).sum →
      ∃ v ks r, (v, ks) ∈ L ∧ r < entrySize ri (v, ks) ∧
        p = blockOffset ri L v + r := by
  intro L
  induction L with
  | nil => intro _ p hp; simp at hp
  | cons u rest ih =>
    intro hnd p hp
    rw [List.map_cons, List.nodup_cons] at hnd
    rw [List.map_cons, List.sum_cons] at hp
    by_cases hcase : p < (rest.map (entrySize ri)).sum
    · obtain ⟨v, ks, r, hmem, hr, hval⟩ := ih hnd.2 hcase
      have hv : u.1 ≠ v := by
        intro he
        exact hnd.1 (he ▸ List.mem_map.mpr ⟨(v, ks), hmem, he ▸ rfl⟩)
      exact ⟨v, ks, r, List.mem_cons_of_mem _ hmem, hr,
        by rw [blockOffset, if_neg hv]; exact hval⟩
    · refine ⟨u.1, u.2, p - (rest.map (entrySize ri)).sum,
        by rw [← @Prod.mk.eta _ _ u]; exact List.mem_cons_self _ _, ?_, ?_⟩
      · rw [Prod.mk.eta]; omega
      · rw [blockOffset, if_pos rfl]; omega

theorem block_inj (ri : RowIndex) :
    ∀ {L : List (String × List String)}, (L.map Prod.fst).Nodup →
      ∀ {v ks r v' ks' r'}, (v, ks) ∈ L → (v', ks') ∈ L →
      r < entrySize ri (v, ks) → r' < entrySize ri (v', ks') →
      blockOffset ri L v + r = blockOffset ri L v' + r' →
      v = v' ∧ r = r' := by
  intro L
  induction L with
  | nil => intro _ v ks r v' ks' r' h; simp at h
  | cons u rest ih =>
    intro hnd v ks r v' ks' r' h1 h2 hr hr' heq
    rw [List.map_cons, List.nodup_cons] at hnd
    have hmem_of : ∀ {w : String} {kw : List String}, (w, kw) ∈ u :: rest →
        u.1 ≠ w → (w, kw) ∈ rest := by
      intro w kw h hne
      rcases List.mem_cons.mp h with hh | hh
      · exact absurd (congrArg Prod.fst hh.symm) hne
      · exact hh
    have hu_of : ∀ {w : String} {kw : List String}, (w, kw) ∈ u :: rest →
        u.1 = w → u = (w, kw) := by
      intro w kw h he
      rcases List.mem_cons.mp h with hh | hh
      · exact hh.symm
      · exact absurd (he ▸ List.mem_map.mpr ⟨(w, kw), hh, he ▸ rfl⟩) hnd.1
    by_cases hv : u.1 = v <;> by_cases hv' : u.1 = v'
    · refine ⟨hv ▸ hv', ?_⟩
      rw [blockOffset, if_pos hv, blockOffset, if_pos hv'] at heq
      omega
    · have hm2 := hmem_of h2 hv'
      have hle := block_le ri hnd.2 hm2
      have hu := hu_of h1 hv
      rw [blockOffset, if_pos hv, blockOffset, if_neg hv'] at heq
      rw [← hu] at hr
      omega
    · have hm1 := hmem_of h1 hv
      have hle := block_le ri hnd.2 hm1
      have hu := hu_of h2 hv'
      rw [blockOffset, if_neg hv, blockOffset, if_pos hv'] at heq
      rw [← hu] at hr'
      omega
    · have hm1 := hmem_of h1 hv
      have hm2 := hmem_of h2 hv'
      rw [blockOffset, if_neg hv, blockOffset, if_neg hv'] at heq
      exact ih hnd.2 hm1 hm2 hr hr' heq

theorem posUnchecked_eq_block (ri : RowIndex) (hnd : ri.varKeys.Nodup)
    {v : String} {ks : List String} (hmem : (v, ks) ∈ ri.vars)
    (idx : List (String × Nat)) :
    ri.posUnchecked v idx =
      mixedVal (digitsOf idx ks) (ks.map ri.bound) + blockOffset ri ri.vars v := by
  obtain ⟨pre, post, hsplit⟩ := List.append_of_mem hmem
  have hkeys : ri.varKeys = pre.map Prod.fst ++ (v :: post.map Prod.fst) := by
    rw [RowIndex.varKeys, hsplit, List.map_append, List.map_cons]
  have hnd2 : (pre.map Prod.fst ++ (v :: post.map Prod.fst)).Nodup := hkeys ▸ hnd
  rw [List.nodup_append] at hnd2
  obtain ⟨hndpre, hndcons, hdisj⟩ := hnd2
  have hvpre : v ∉ pre.map Prod.fst := fun hv => hdisj hv (List.mem_cons_self _ _)
  have hvpost : v ∉ post.map Prod.fst := (List.nodup_cons.mp hndcons).1
  have hvar : ri.varIdx v = ks := varIdx_eq ri hnd hmem
  have hidxv : idxOf ri.varKeys v = pre.length := by
    rw [hkeys, idxOf_append_of_not_mem _ hvpre, idxOf_cons_self, List.length_map]
    omega
  rw [RowIndex.posUnchecked, hkeys, List.map_append, List.sum_append,
    List.map_cons, List.sum_cons]
  have hpre0 : ((pre.map Prod.fst).map (ri.contrib v idx)).sum = 0 := by
    apply List.sum_eq_zero
    intro x hx
    obtain ⟨u, hu, rfl⟩ := List.mem_map.mp hx
    have hne : u ≠ v := fun he => hvpre (he ▸ hu)
    have hprec : ri.precedes u v := by
      rw [RowIndex.precedes, hidxv, hkeys, idxOf_append_of_mem _ hu]
      simpa using idxOf_lt_of_mem hu
    rw [RowIndex.contrib, if_neg hne, if_pos hprec]
  have hctr : ri.contrib v idx v =
      mixedVal (digitsOf idx ks) (ks.map ri.bound) := by
    rw [RowIndex.contrib, if_pos rfl, hvar, RowIndex.radixMap, hvar]
  have hpost : ((post.map Prod.fst).map (ri.contrib v idx)).sum =
      (post.map (entrySize ri)).sum := by
    rw [List.map_map]
    apply congrArg
    apply List.map_congr_left
    intro e he
    have hene : e.1 ≠ v := fun hv =>
      hvpost (hv ▸ List.mem_map.mpr ⟨e, he, rfl⟩)
    have hepre : e.1 ∉ pre.map Prod.fst := fun hp =>
      hdisj hp (List.mem_cons_of_mem _ (List.mem_map.mpr ⟨e, he, rfl⟩))
    have hprec : ¬ ri.precedes e.1 v := by
      rw [RowIndex.precedes, hidxv, hkeys, idxOf_append_of_not_mem _ hepre,
        idxOf_cons_ne _ (fun hv => hene hv.symm)]
      simp only [List.length_map]
      omega
    have hememb : (e.1, e.2) ∈ ri.vars := by
      rw [hsplit]
      exact List.mem_append_right _ (List.mem_cons_of_mem _ (by
        rw [Prod.mk.eta]; exact he))
    have : ri.contrib v idx e.1 = (e.2.map ri.bound).prod := by
      rw [RowIndex.contrib, if_neg hene, if_neg hprec, RowIndex.radixMap,
        varIdx_eq ri hnd hememb]
    rw [Function.comp_apply, this, entrySize]
  rw [hpre0, hctr, hpost, hsplit, blockOffset_split ri post hvpre]
  omega

theorem get_row_len_eq (ri : RowIndex) (hnd : ri.varKeys.Nodup) :
    ri.get_row_len = (ri.vars.map (entrySize ri)).sum := by
  rw [RowIndex.get_row_len, RowIndex.varKeys, List.map_map]
  apply congrArg
  apply List.map_congr_left
  intro e he
  have hememb : (e.1, e.2) ∈ ri.vars := by rw [Prod.mk.eta]; exact he
  rw [Function.comp_apply, RowIndex.radixMap, varIdx_eq ri hnd hememb, entrySize]

theorem zip_snd_le_bound (ri : RowIndex) :
    ∀ {ds : List Nat} {ks : List String},
      List.Forall₂ (fun d k => d < ri.bound k) ds ks →
      ∀ p ∈ ks.zip ds, p.2 ≤ ri.bound p.1 := by
  intro ds ks h
  induction h with
  | nil => intro p hp; simp at hp
  | @cons d k ds' ks' hdk htail ih =>
    intro p hp
    rw [List.zip_cons_cons] at hp
    rcases List.mem_cons.mp hp with h1 | h1
    · subst h1; exact Nat.le_of_lt hdk
    · exact ih p h1

theorem get_pos_eq (ri : RowIndex) (hwf : ri.WF) {v : String}
    {ks : List String} {ds : List Nat} (hmem : (v, ks) ∈ ri.vars)
    (hds : List.Forall₂ (fun d k => d < ri.bound k) ds ks) :
    ri.get_pos v (ks.zip ds) =
      some (mixedVal ds (ks.map ri.bound) + blockOffset ri ri.vars v) := by
  obtain ⟨hnd, hndidx, hpresent⟩ := hwf
  have hlen : ds.length = ks.length := hds.length_eq
  have hfst : (ks.zip ds).map Prod.fst = ks :=
    List.map_fst_zip ks ds (Nat.le_of_eq hlen.symm)
  have hvar : ri.varIdx v = ks := varIdx_eq ri hnd hmem
  have hargs : ri.argsOk v (ks.zip ds) := by
    refine ⟨List.mem_map.mpr ⟨(v, ks), hmem, rfl⟩, ?_, ?_, ?_⟩
    · intro k hk; rw [hfst] at hk; rw [hvar]; exact hk
    · intro k hk; rw [hvar] at hk; rw [hfst]; exact hk
    · intro p hp
      constructor
      · have hk : p.1 ∈ ks := (List.of_mem_zip hp).1
        exact hpresent (v, ks) hmem p.1 hk
      · exact zip_snd_le_bound ri hds p hp
  rw [RowIndex.get_pos, if_pos hargs,
    posUnchecked_eq_block ri hnd hmem (ks.zip ds),
    digitsOf_zip (hndidx (v, ks) hmem) hlen]

/-- C3: the row length is the sum over declared variables of the product of
their index bounds; `get_pos` is injective over in-range `(variable, digit
tuple)` pairs; and the image of `get_pos` over those pairs is exactly
`[0, rowLen)`.  The code's actual layout assigns the blocks in reverse
declaration order, but the partition properties claimed here hold. -/
theorem c3_row_layout (ri : RowIndex) (hwf : ri.WF) :
    (ri.get_row_len = (ri.vars.map fun u => (u.2.map ri.bound).prod).sum) ∧
    (∀ v ks ds v' ks' ds' p, (v, ks) ∈ ri.vars → (v', ks') ∈ ri.vars →
      List.Forall₂ (fun d k => d < ri.bound k) ds ks →
      List.Forall₂ (fun d k => d < ri.bound k) ds' ks' →
      ri.get_pos v (ks.zip ds) = some p → ri.get_pos v' (ks'.zip ds') = some p →
      v = v' ∧ ds = ds') ∧
    (∀ p, p < ri.get_row_len → ∃ v ks ds, (v, ks) ∈ ri.vars ∧
      List.Forall₂ (fun d k => d < ri.bound k) ds ks ∧
      ri.get_pos v (ks.zip ds) = some p) := by
  obtain ⟨hnd, hndidx, hpresent⟩ := hwf
  refine ⟨get_row_len_eq ri hnd, ?_, ?_⟩
  · intro v ks ds v' ks' ds' p hm hm' hds hds' hp hp'
    rw [get_pos_eq ri ⟨hnd, hndidx, hpresent⟩ hm hds] at hp
    rw [get_pos_eq ri ⟨hnd, hndidx, hpresent⟩ hm' hds'] at hp'
    have hlt : mixedVal ds (ks.map ri.bound) < entrySize ri (v, ks) := by
      rw [entrySize]
      exact mixedVal_lt (List.forall₂_map_right_iff.mpr hds)
    have hlt' : mixedVal ds' (ks'.map ri.bound) < entrySize ri (v', ks') := by
      rw [entrySize]
      exact mixedVal_lt (List.forall₂_map_right_iff.mpr hds')
    have heq2 : blockOffset ri ri.vars v + mixedVal ds (ks.map ri.bound) =
        blockOffset ri ri.vars v' + mixedVal ds' (ks'.map ri.bound) := by
      have e1 := Option.some.inj hp
      have e2 := Option.some.inj hp'
      omega
    obtain ⟨hveq, hreq⟩ := block_inj ri hnd hm hm' hlt hlt' heq2
    refine ⟨hveq, ?_⟩
    subst hveq
    have hkeq : ks = ks' := mem_nodup_key_eq hnd hm hm'
    subst hkeq
    exact mixedVal_inj (List.forall₂_map_right_iff.mpr hds)
      (List.forall₂_map_right_iff.mpr hds') hreq
  · intro p hp
    rw [get_row_len_eq ri hnd] at hp
    have hp2 : p < (ri.vars.map (entrySize ri)).sum := hp
    obtain ⟨v, ks, r, hmem, hr, hval⟩ := block_partition ri hnd hp2
    rw [entrySize] at hr
    obtain ⟨ds, hds, hdv⟩ := mixedVal_surj hr
    have hds2 : List.Forall₂ (fun d k => d < ri.bound k) ds ks :=
      List.forall₂_map_right_iff.mp hds
    refine ⟨v, ks, ds, hmem, hds2, ?_⟩
    rw [get_pos_eq ri ⟨hnd, hndidx, hpresent⟩ hmem hds2, hdv]
    exact congrArg some (by omega)

/-- C2: on the schema of the `RowIndex` docstring (variables declared in the
order `x`, `y`), the claim places the first declared variable at positions
`[0, N0)`, so `get_pos("x", j=0, rho=0)` would be `0`.  The code instead adds
the block sizes of the variables declared *after* the queried one — the
`_check_precedence` branch of `map_var` zeroes the predecessors and keeps the
successors — so `x` lands at position `2` (after `y`'s block of size `2`)
and `y`, declared second, starts at `0`.  This contradicts the claimed base
offset `Σ_{v' < v} Π bound(r_v')` and the class's own docstring layout
`Xa0b0 Xa0b1 ... Ya0c0 ...`. -/
theorem c2_layout_reversed :
    exRowIndex.get_pos "x" [("j", 0), ("rho", 0)] = some 2 ∧
    exRowIndex.get_pos "y" [("j", 0)] = some 0 ∧
    exRowIndex.get_row_len = 8 := by
  decide

/-- C8: `get_pos` does fail for an unknown variable and for a wrong index-name
set, but its range assertion reads `0 <= indices[i] <= self.indices[i]`, so a
call with an index *equal* to its bound — outside the documented domain
`[0; N)` — is accepted: with bound `j = 2`, `get_pos("x", j=2, rho=0)`
returns `8`, which even lies outside the whole row `[0, 8)`.  The claim
states such a call must fail. -/
theorem c8_range_check_off_by_one :
    exRowIndex.get_pos "w" [("j", 0), ("rho", 0)] = none ∧
    exRowIndex.get_pos "x" [("j", 0)] = none ∧
    exRowIndex.get_pos "x" [("j", 3), ("rho", 0)] = none ∧
    exRowIndex.get_pos "x" [("j", 2), ("rho", 0)] = some 8 ∧
    exRowIndex.get_row_len = 8 := by
  decide

/-- Witness for `c3_row_layout`: its hypotheses hold at the docstring
example, where position `0` is hit by an in-range instance. -/
theorem c3_row_layout_witness :
    ∃ v ks ds, (v, ks) ∈ exRowIndex.vars ∧
      List.Forall₂ (fun d k => d < exRowIndex.bound k) ds ks ∧
      exRowIndex.get_pos v (ks.zip ds) = some 0 :=
  (c3_row_layout exRowIndex (by decide)).2.2 0 (by decide)

/-!
Closed forms for the planner's variable positions.  The planner's row index
declares `y`, `x`, `z`, `g` in that order; because `get_pos` offsets each
variable by the blocks of the variables declared after it, the blocks lie in
the reverse order `g`, `z`, `x`, `y`.
-/

theorem plannerRI_WF (nJ nRho nL : Nat) : (plannerRI nJ nRho nL).WF := by
  refine ⟨?_, ?_, ?_⟩
  · show (["y", "x", "z", "g"] : List String).Nodup
    decide
  · intro u hu
    fin_cases hu <;> decide
  · intro u hu
    fin_cases hu <;>
      · intro k hk
        fin_cases hk <;> rfl

theorem get_pos_y (nJ nRho nL j rho l : Nat) (hj : j < nJ) (hrho : rho < nRho)
    (hl : l < nL) :
    (plannerRI nJ nRho nL).get_pos "y" (eqIdx3 j rho l) =
      some (posY nJ nRho nL j rho l) := by
  have hmem : ("y", ["j", "rho", "l"]) ∈ (plannerRI nJ nRho nL).vars := by
    simp [plannerRI]
  have hds : List.Forall₂ (fun d k => d < (plannerRI nJ nRho nL).bound k)
      [j, rho, l] ["j", "rho", "l"] :=
    List.Forall₂.cons hj (List.Forall₂.cons hrho (List.Forall₂.cons hl List.Forall₂.nil))
  have h := get_pos_eq (plannerRI nJ nRho nL) (plannerRI_WF nJ nRho nL) hmem hds
  rw [show (["j", "rho", "l"] : List String).zip [j, rho, l] = eqIdx3 j rho l from rfl] at h
  rw [h]
  congr 1
  simp +decide [mixedVal, blockOffset, entrySize, plannerRI, RowIndex.bound, alookup,
    posY, sB, sX, rank3]
  ring

theorem get_pos_x (nJ nRho nL j i rho l : Nat) (hj : j < nJ) (hi : i < nJ)
    (hrho : rho < nRho) (hl : l < nL) :
    (plannerRI nJ nRho nL).get_pos "x" (eqIdx4 j i rho l) =
      some (posX nJ nRho nL j i rho l) := by
  have hmem : ("x", ["j", "i", "rho", "l"]) ∈ (plannerRI nJ nRho nL).vars := by
    simp [plannerRI]
  have hds : List.Forall₂ (fun d k => d < (plannerRI nJ nRho nL).bound k)
      [j, i, rho, l] ["j", "i", "rho", "l"] :=
    List.Forall₂.cons hj (List.Forall₂.cons hi
      (List.Forall₂.cons hrho (List.Forall₂.cons hl List.Forall₂.nil)))
  have h := get_pos_eq (plannerRI nJ nRho nL) (plannerRI_WF nJ nRho nL) hmem hds
  rw [show (["j", "i", "rho", "l"] : List String).zip [j, i, rho, l] =
    eqIdx4 j i rho l from rfl] at h
  rw [h]
  congr 1
  simp +decide [mixedVal, blockOffset, entrySize, plannerRI, RowIndex.bound, alookup,
    posX, sB, sX, rank4]
  ring

theorem get_pos_z (nJ nRho nL j rho l : Nat) (hj : j < nJ) (hrho : rho < nRho)
    (hl : l < nL) :
    (plannerRI nJ nRho nL).get_pos "z" (eqIdx3 j rho l) =
      some (posZ nJ nRho nL j rho l) := by
  have hmem : ("z", ["j", "rho", "l"]) ∈ (plannerRI nJ nRho nL).vars := by
    simp [plannerRI]
  have hds : List.Forall₂ (fun d k => d < (plannerRI nJ nRho nL).bound k)
      [j, rho, l] ["j", "rho", "l"] :=
    List.Forall₂.cons hj (List.Forall₂.cons hrho (List.Forall₂.cons hl List.Forall₂.nil))
  have h := get_pos_eq (plannerRI nJ nRho nL) (plannerRI_WF nJ nRho nL) hmem hds
  rw [show (["j", "rho", "l"] : List String).zip [j, rho, l] = eqIdx3 j rho l from rfl] at h
  rw [h]
  congr 1
  simp +decide [mixedVal, blockOffset, entrySize, plannerRI, RowIndex.bound, alookup,
    posZ, sB, rank3]
  ring

theorem get_pos_g (nJ nRho nL j rho l : Nat) (hj : j < nJ) (hrho : rho < nRho)
    (hl : l < nL) :
    (plannerRI nJ nRho nL).get_pos "g" (eqIdx3 j rho l) =
      some (posG nJ nRho nL j rho l) := by
  have hmem : ("g", ["j", "rho", "l"]) ∈ (plannerRI nJ nRho nL).vars := by
    simp [plannerRI]
  have hds : List.Forall₂ (fun d k => d < (plannerRI nJ nRho nL).bound k)
      [j, rho, l] ["j", "rho", "l"] :=
    List.Forall₂.cons hj (List.Forall₂.cons hrho (List.Forall₂.cons hl List.Forall₂.nil))
  have h := get_pos_eq (plannerRI nJ nRho nL) (plannerRI_WF nJ nRho nL) hmem hds
  rw [show (["j", "rho", "l"] : List String).zip [j, rho, l] = eqIdx3 j rho l from rfl] at h
  rw [h]
  congr 1
  simp +decide [mixedVal, blockOffset, entrySize, plannerRI, RowIndex.bound, alookup,
    posG, rank3]
  ring

theorem rowLenP_eq (nJ nRho nL : Nat) :
    (plannerRI nJ nRho nL).get_row_len = sX nJ nRho nL + 3 * sB nJ nRho nL := by
  simp +decide [RowIndex.get_row_len, RowIndex.varKeys, RowIndex.radixMap,
    RowIndex.varIdx, RowIndex.bound, plannerRI, alookup, sX, sB]
  ring

theorem rankLt {a A b B : Nat} (ha : a < A) (hb : b < B) : a * B + b < A * B := by
  calc a * B + b < a * B + B := by omega
  _ = (a + 1) * B := by ring
  _ ≤ A * B := Nat.mul_le_mul_right _ (by omega)

theorem rank3_lt (nJ nRho nL j rho l : Nat) (hj : j < nJ) (hrho : rho < nRho)
    (hl : l < nL) : rank3 nRho nL j rho l < sB nJ nRho nL := by
  have h1 : j * nRho + rho < nJ * nRho := rankLt hj hrho
  have h2 : (j * nRho + rho) * nL + l < nJ * nRho * nL := rankLt h1 hl
  rw [rank3, sB]
  calc (j * nRho + rho) * nL + l < nJ * nRho * nL := h2
  _ = nJ * (nRho * nL) := by ring

theorem rank4_lt (nJ nRho nL j i rho l : Nat) (hj : j < nJ) (hi : i < nJ)
    (hrho : rho < nRho) (hl : l < nL) :
    rank4 nJ nRho nL j i rho l < sX nJ nRho nL := by
  have h1 : j * nJ + i < nJ * nJ := rankLt hj hi
  have h2 : (j * nJ + i) * nRho + rho < nJ * nJ * nRho := rankLt h1 hrho
  have h3 : ((j * nJ + i) * nRho + rho) * nL + l < nJ * nJ * nRho * nL := rankLt h2 hl
  rw [rank4, sX]
  calc ((j * nJ + i) * nRho + rho) * nL + l < nJ * nJ * nRho * nL := h3
  _ = nJ * (nJ * (nRho * nL)) := by ring

theorem rank3_inj {nRho nL j rho l j' rho' l' : Nat} (hrho : rho < nRho)
    (hl : l < nL) (hrho' : rho' < nRho) (hl' : l' < nL)
    (h : rank3 nRho nL j rho l = rank3 nRho nL j' rho' l') :
    j = j' ∧ rho = rho' ∧ l = l' := by
  rw [rank3, rank3] at h
  obtain ⟨h1, h2⟩ := mulAdd_inj hl hl' h
  obtain ⟨h3, h4⟩ := mulAdd_inj hrho hrho' h1
  exact ⟨h3, h4, h2⟩

theorem rank4_inj {nJ nRho nL j i rho l j' i' rho' l' : Nat} (hi : i < nJ)
    (hrho : rho < nRho) (hl : l < nL) (hi' : i' < nJ) (hrho' : rho' < nRho)
    (hl' : l' < nL) (h : rank4 nJ nRho nL j i rho l = rank4 nJ nRho nL j' i' rho' l') :
    j = j' ∧ i = i' ∧ rho = rho' ∧ l = l' := by
  rw [rank4, rank4] at h
  obtain ⟨h1, h2⟩ := mulAdd_inj hl hl' h
  obtain ⟨h3, h4⟩ := mulAdd_inj hrho hrho' h1
  obtain ⟨h5, h6⟩ := mulAdd_inj hi hi' h3
  exact ⟨h5, h6, h4, h2⟩

/-!
Evaluation machinery: sequences of array assignments, `mapM` over `Option`,
and indexing into the lexicographic tuple enumerations.
-/

theorem applyAssignments_cons {α : Type} (vec : List α) (q : Nat × α)
    (ps : List (Nat × α)) :
    applyAssignments vec (q :: ps) = applyAssignments (vec.set q.1 q.2) ps := rfl

theorem applyAssignments_length {α : Type} :
    ∀ (ps : List (Nat × α)) (vec : List α),
      (applyAssignments vec ps).length = vec.length := by
  intro ps
  induction ps with
  | nil => intro vec; rfl
  | cons q rest ih =>
    intro vec
    rw [applyAssignments_cons, ih, List.length_set]

theorem applyAssignments_getD_not_mem {α : Type} (d : α) :
    ∀ (ps : List (Nat × α)) (vec : List α) (p : Nat),
      p ∉ ps.map Prod.fst →
      (applyAssignments vec ps).getD p d = vec.getD p d := by
  intro ps
  induction ps with
  | nil => intro vec p _; rfl
  | cons q rest ih =>
    intro vec p hp
    rw [List.map_cons] at hp
    have hq : q.1 ≠ p := fun he => hp (he ▸ List.mem_cons_self _ _)
    have hrest : p ∉ rest.map Prod.fst := fun hr => hp (List.mem_cons_of_mem _ hr)
    rw [applyAssignments_cons, ih _ p hrest, List.getD_eq_getElem?_getD,
      List.getD_eq_getElem?_getD, List.getElem?_set_ne hq]

theorem applyAssignments_getD_mem {α : Type} (d : α) :
    ∀ (ps : List (Nat × α)) (vec : List α) (q : Nat × α),
      (ps.map Prod.fst).Nodup → q ∈ ps → q.1 < vec.length →
      (applyAssignments vec ps).getD q.1 d = q.2 := by
  intro ps
  induction ps with
  | nil => intro vec q _ hq; simp at hq
  | cons r rest ih =>
    intro vec q hnd hq hlen
    rw [List.map_cons, List.nodup_cons] at hnd
    rcases List.mem_cons.mp hq with h1 | h1
    · subst h1
      have hnm : q.1 ∉ rest.map Prod.fst := hnd.1
      rw [applyAssignments_cons, applyAssignments_getD_not_mem d rest _ q.1 hnm,
        List.getD_eq_getElem?_getD, List.getElem?_set_self (by simpa using hlen)]
      rfl
    · have hr : q.1 ∈ rest.map Prod.fst := List.mem_map.mpr ⟨q, h1, rfl⟩
      rw [applyAssignments_cons]
      exact ih _ q hnd.2 h1 (by simpa using hlen)

theorem mapM_eq_some {α β : Type} (f : α → Option β) (g : α → β) :
    ∀ (L : List α), (∀ a ∈ L, f a = some (g a)) → L.mapM f = some (L.map g) := by
  intro L
  induction L with
  | nil => intro _; rfl
  | cons a rest ih =>
    intro h
    rw [List.mapM_cons, h a (List.mem_cons_self _ _),
      ih (fun b hb => h b (List.mem_cons_of_mem _ hb)), List.map_cons]
    rfl

theorem flatMap_range_length {α : Type} (B : Nat) (f : Nat → List α)
    (hB : ∀ i, (f i).length = B) :
    ∀ n, ((List.range n).flatMap f).length = n * B := by
  intro n
  induction n with
  | zero => simp
  | succ m ih =>
    rw [List.range_succ, List.flatMap_append, List.length_append, ih]
    simp [hB m]
    ring

theorem flatMap_range_getD {α : Type} (B : Nat) (f : Nat → List α)
    (hB : ∀ i, (f i).length = B) (d : α) :
    ∀ (n j r : Nat), j < n → r < B →
      ((List.range n).flatMap f).getD (j * B + r) d = (f j).getD r d := by
  intro n
  induction n with
  | zero => intro j r hj _; omega
  | succ m ih =>
    intro j r hj hr
    rw [List.range_succ, List.flatMap_append]
    by_cases hjm : j < m
    · rw [List.getD_eq_getElem?_getD, List.getElem?_append_left
        (by rw [flatMap_range_length B f hB m]; exact rankLt hjm hr),
        ← List.getD_eq_getElem?_getD]
      exact ih j r hjm hr
    · have hje : j = m := by omega
      subst hje
      rw [List.getD_eq_getElem?_getD, List.getElem?_append_right
        (by rw [flatMap_range_length B f hB j]; exact Nat.le_add_right _ _),
        flatMap_range_length B f hB j]
      simp only [List.flatMap_cons, List.flatMap_nil, List.append_nil]
      rw [Nat.add_sub_cancel_left, ← List.getD_eq_getElem?_getD]

theorem allTriples_length (nJ nRho nL : Nat) :
    (allTriples nJ nRho nL).length = nJ * (nRho * nL) := by
  rw [allTriples]
  apply flatMap_range_length
  intro j
  apply flatMap_range_length
  intro rho
  simp

theorem allTriples_getD (nJ nRho nL j rho l : Nat) (hj : j < nJ)
    (hrho : rho < nRho) (hl : l < nL) :
    (allTriples nJ nRho nL).getD (rank3 nRho nL j rho l) (0, 0, 0) = (j, rho, l) := by
  rw [allTriples]
  have hstep : rank3 nRho nL j rho l = j * (nRho * nL) + (rho * nL + l) := by
    rw [rank3]; ring
  rw [hstep]
  rw [flatMap_range_getD (nRho * nL) _
    (fun i => flatMap_range_length nL _ (fun _ => by simp) nRho) _
    nJ j (rho * nL + l) hj (rankLt hrho hl)]
  rw [flatMap_range_getD nL _ (fun _ => by simp) _ nRho rho l hrho hl]
  rw [List.getD_eq_getElem?_getD, List.getElem?_map,
    List.getElem?_range hl]
  rfl

theorem makeEqLhsRhs_eval (d : DataStore) (nJ nRho nL j rho l : Nat)
    (hj : j < nJ) (hrho : rho < nRho) (hl : l < nL) :
    makeEqLhsRhs d nJ nRho nL j rho l =
      some (applyAssignments
        (List.replicate (plannerRI nJ nRho nL).get_row_len (0 : ℚ))
        ([(posG nJ nRho nL j rho l, (1 : ℚ)), (posY nJ nRho nL j rho l, 1),
          (posZ nJ nRho nL j rho l, 1)] ++
         (if 0 < l then [(posY nJ nRho nL j rho (l - 1), (-1 : ℚ))] else []) ++
         ((List.range nJ).map fun i =>
            if i = j then []
            else [(posX nJ nRho nL i j rho l, (-1 : ℚ)),
                  (posX nJ nRho nL j i rho l, (1 : ℚ))]).flatten),
        getZero d "x_eq" [j, rho, l]) := by
  have hmap : (List.range nJ).mapM (fun i =>
      if i = j then pure []
      else do
        let xin ← (plannerRI nJ nRho nL).get_pos "x" (eqIdx4 i j rho l)
        let xout ← (plannerRI nJ nRho nL).get_pos "x" (eqIdx4 j i rho l)
        pure [(xin, (-1 : ℚ)), (xout, (1 : ℚ))]) =
      some ((List.range nJ).map fun i =>
        if i = j then []
        else [(posX nJ nRho nL i j rho l, (-1 : ℚ)),
              (posX nJ nRho nL j i rho l, (1 : ℚ))]) := by
    apply mapM_eq_some
    intro i hi
    have hiJ : i < nJ := List.mem_range.mp hi
    by_cases hij : i = j
    · simp [hij]
    · rw [if_neg hij, if_neg hij, get_pos_x nJ nRho nL i j rho l hiJ hj hrho hl,
        get_pos_x nJ nRho nL j i rho l hj hiJ hrho hl]
      rfl
  simp only [Option.pure_def, Option.bind_eq_bind] at hmap
  by_cases h0 : 0 < l
  · have hl1 : l - 1 < nL := by omega
    rw [makeEqLhsRhs]
    simp only [Option.pure_def, Option.bind_eq_bind]
    rw [get_pos_g nJ nRho nL j rho l hj hrho hl,
      get_pos_y nJ nRho nL j rho l hj hrho hl,
      get_pos_z nJ nRho nL j rho l hj hrho hl]
    simp only [Option.some_bind]
    rw [if_pos h0]
    rw [get_pos_y nJ nRho nL j rho (l - 1) hj hrho hl1]
    try simp only [Option.some_bind]
    rw [hmap]
    try simp only [Option.some_bind]
    rw [if_pos h0]
  · rw [makeEqLhsRhs]
    simp only [Option.pure_def, Option.bind_eq_bind]
    rw [get_pos_g nJ nRho nL j rho l hj hrho hl,
      get_pos_y nJ nRho nL j rho l hj hrho hl,
      get_pos_z nJ nRho nL j rho l hj hrho hl]
    simp only [Option.some_bind]
    rw [if_neg h0]
    try simp only [Option.some_bind]
    rw [hmap]
    try simp only [Option.some_bind]
    rw [if_neg h0]

theorem posX_inj {nJ nRho nL j i rho l j' i' rho' l' : Nat} (hi : i < nJ)
    (hrho : rho < nRho) (hl : l < nL) (hi' : i' < nJ) (hrho' : rho' < nRho)
    (hl' : l' < nL)
    (h : posX nJ nRho nL j i rho l = posX nJ nRho nL j' i' rho' l') :
    j = j' ∧ i = i' ∧ rho = rho' ∧ l = l' := by
  have h4 : rank4 nJ nRho nL j i rho l = rank4 nJ nRho nL j' i' rho' l' := by
    rw [posX, posX] at h
    omega
  exact rank4_inj hi hrho hl hi' hrho' hl' h4

theorem xpairs_mem (nJ nRho nL j rho l : Nat) (L : List Nat) (p : Nat) :
    (p ∈ ((L.map fun i => if i = j then ([] : List Nat)
        else [posX nJ nRho nL i j rho l, posX nJ nRho nL j i rho l]).flatten) ↔
      ∃ i ∈ L, i ≠ j ∧
        (p = posX nJ nRho nL i j rho l ∨ p = posX nJ nRho nL j i rho l)) := by
  simp only [List.mem_flatten, List.mem_map]
  constructor
  · rintro ⟨bl, ⟨i, hi, rfl⟩, hp⟩
    by_cases hij : i = j
    · rw [if_pos hij] at hp
      simp at hp
    · rw [if_neg hij] at hp
      exact ⟨i, hi, hij, by simpa using hp⟩
  · rintro ⟨i, hi, hij, hp⟩
    exact ⟨_, ⟨i, hi, rfl⟩, by rw [if_neg hij]; simpa using hp⟩

theorem xpairs_nodup (nJ nRho nL j rho l : Nat) (hj : j < nJ)
    (hrho : rho < nRho) (hl : l < nL) :
    ∀ L : List Nat, L.Nodup → (∀ i ∈ L, i < nJ) →
      (((L.map fun i => if i = j then ([] : List Nat)
        else [posX nJ nRho nL i j rho l, posX nJ nRho nL j i rho l]).flatten).Nodup) := by
  intro L
  induction L with
  | nil => intro _ _; simp
  | cons i rest ih =>
    intro hnd hbd
    rw [List.map_cons, List.flatten_cons, List.nodup_append]
    have hiJ : i < nJ := hbd i (List.mem_cons_self _ _)
    refine ⟨?_, ih (List.nodup_cons.mp hnd).2
      (fun a ha => hbd a (List.mem_cons_of_mem _ ha)), ?_⟩
    · by_cases hij : i = j
      · rw [if_pos hij]; exact List.nodup_nil
      · rw [if_neg hij]
        refine List.nodup_cons.mpr ⟨?_, List.nodup_singleton _⟩
        intro hmem
        have he : posX nJ nRho nL i j rho l = posX nJ nRho nL j i rho l := by
          simpa using hmem
        exact hij (posX_inj hj hrho hl hiJ hrho hl he).1
    · intro p hp hp'
      obtain ⟨i', hi', hij', hpe'⟩ :=
        (xpairs_mem nJ nRho nL j rho l rest p).mp hp'
      have hi'J : i' < nJ := hbd i' (List.mem_cons_of_mem _ hi')
      have hii' : i ≠ i' := fun he => (List.nodup_cons.mp hnd).1 (he ▸ hi')
      by_cases hij : i = j
      · rw [if_pos hij] at hp
        simp at hp
      · rw [if_neg hij] at hp
        have hpe : p = posX nJ nRho nL i j rho l ∨
            p = posX nJ nRho nL j i rho l := by simpa using hp
        rcases hpe with he | he <;> rcases hpe' with he' | he'
        · exact hii' (posX_inj hj hrho hl hj hrho hl (he.symm.trans he')).1
        · exact hij (posX_inj hj hrho hl hi'J hrho hl (he.symm.trans he')).1
        · exact hij (posX_inj hiJ hrho hl hj hrho hl (he.symm.trans he')).2.1
        · exact hii' (posX_inj hiJ hrho hl hi'J hrho hl (he.symm.trans he')).2.1

theorem eqRow_getD (nJ nRho nL j rho l : Nat) (hj : j < nJ) (hrho : rho < nRho)
    (hl : l < nL) :
    ∀ p, p < (plannerRI nJ nRho nL).get_row_len →
      (applyAssignments
        (List.replicate (plannerRI nJ nRho nL).get_row_len (0 : ℚ))
        ([(posG nJ nRho nL j rho l, (1 : ℚ)), (posY nJ nRho nL j rho l, 1),
          (posZ nJ nRho nL j rho l, 1)] ++
         (if 0 < l then [(posY nJ nRho nL j rho (l - 1), (-1 : ℚ))] else []) ++
         ((List.range nJ).map fun i =>
            if i = j then []
            else [(posX nJ nRho nL i j rho l, (-1 : ℚ)),
                  (posX nJ nRho nL j i rho l, (1 : ℚ))]).flatten)).getD p 0 =
      eqCoeff nJ nRho nL j rho l p := by
  have eRow := rowLenP_eq nJ nRho nL
  have hr3 : rank3 nRho nL j rho l < sB nJ nRho nL :=
    rank3_lt nJ nRho nL j rho l hj hrho hl
  have hr3p : rank3 nRho nL j rho (l - 1) < sB nJ nRho nL :=
    rank3_lt nJ nRho nL j rho (l - 1) hj hrho (by omega)
  have hr4 : ∀ a b, a < nJ → b < nJ → rank4 nJ nRho nL a b rho l < sX nJ nRho nL :=
    fun a b ha hb => rank4_lt nJ nRho nL a b rho l ha hb hrho hl
  have eG : posG nJ nRho nL j rho l = rank3 nRho nL j rho l := rfl
  have eZ : posZ nJ nRho nL j rho l = sB nJ nRho nL + rank3 nRho nL j rho l := rfl
  have eY : posY nJ nRho nL j rho l =
    2 * sB nJ nRho nL + sX nJ nRho nL + rank3 nRho nL j rho l := rfl
  have eYp : posY nJ nRho nL j rho (l - 1) =
    2 * sB nJ nRho nL + sX nJ nRho nL + rank3 nRho nL j rho (l - 1) := rfl
  have eX : ∀ a b, posX nJ nRho nL a b rho l =
      2 * sB nJ nRho nL + rank4 nJ nRho nL a b rho l := fun a b => rfl
  have hYY : 0 < l → posY nJ nRho nL j rho l ≠ posY nJ nRho nL j rho (l - 1) := by
    intro h0 he
    have h3 : rank3 nRho nL j rho l = rank3 nRho nL j rho (l - 1) := by omega
    have := (rank3_inj hrho hl hrho (by omega) h3).2.2
    omega
  -- the assignment list and its key list
  set xsL := ((List.range nJ).map fun i =>
      if i = j then ([] : List (Nat × ℚ))
      else [(posX nJ nRho nL i j rho l, (-1 : ℚ)),
            (posX nJ nRho nL j i rho l, (1 : ℚ))]).flatten with hxsL
  set xsF := ((List.range nJ).map fun i =>
      if i = j then ([] : List Nat)
      else [posX nJ nRho nL i j rho l, posX nJ nRho nL j i rho l]).flatten with hxsF
  set prevL := (if 0 < l then [(posY nJ nRho nL j rho (l - 1), (-1 : ℚ))] else [])
    with hprevL
  set A := ([(posG nJ nRho nL j rho l, (1 : ℚ)), (posY nJ nRho nL j rho l, 1),
      (posZ nJ nRho nL j rho l, 1)] ++ prevL ++ xsL) with hA
  have hxsLf : xsL.map Prod.fst = xsF := by
    rw [hxsL, hxsF, List.map_flatten, List.map_map]
    congr 1
    apply List.map_congr_left
    intro i _
    by_cases hij : i = j <;> simp [hij]
  have hAfst : A.map Prod.fst =
      [posG nJ nRho nL j rho l, posY nJ nRho nL j rho l, posZ nJ nRho nL j rho l] ++
      (if 0 < l then [posY nJ nRho nL j rho (l - 1)] else []) ++ xsF := by
    rw [hA, List.map_append, List.map_append, hxsLf, hprevL]
    congr 2
    by_cases h0 : 0 < l <;> simp [h0]
  have hxmem : ∀ q, q ∈ xsF ↔ ∃ i, i < nJ ∧ i ≠ j ∧
      (q = posX nJ nRho nL i j rho l ∨ q = posX nJ nRho nL j i rho l) := by
    intro q
    rw [hxsF, xpairs_mem]
    constructor
    · rintro ⟨i, hi, h⟩
      exact ⟨i, List.mem_range.mp hi, h⟩
    · rintro ⟨i, hi, h⟩
      exact ⟨i, List.mem_range.mpr hi, h⟩
  have hxrange : ∀ q ∈ xsF, 2 * sB nJ nRho nL ≤ q ∧
      q < 2 * sB nJ nRho nL + sX nJ nRho nL := by
    intro q hq
    obtain ⟨i, hi, hij, hqe⟩ := (hxmem q).mp hq
    rcases hqe with rfl | rfl
    · have := hr4 i j hi hj; rw [eX]; omega
    · have := hr4 j i hj hi; rw [eX]; omega
  have hndA : (A.map Prod.fst).Nodup := by
    rw [hAfst, List.nodup_append, List.nodup_append]
    refine ⟨⟨?_, ?_, ?_⟩, ?_, ?_⟩
    · simp only [List.nodup_cons, List.mem_cons, List.mem_singleton,
        List.not_mem_nil, List.nodup_nil]
      refine ⟨?_, ?_, by trivial⟩
      · rintro (hq1 | hq1 | hq1)
        · omega
        · omega
        · exact hq1
      · rintro (hq2 | hq2)
        · omega
        · exact hq2
    · by_cases h0 : 0 < l <;> simp [h0]
    · intro a ha
      by_cases h0 : 0 < l
      · rw [if_pos h0]
        simp only [List.mem_cons, List.not_mem_nil, or_false] at ha
        rcases ha with rfl | rfl | rfl
        · simp only [List.mem_singleton]
          omega
        · simp only [List.mem_singleton]
          exact hYY h0
        · simp only [List.mem_singleton]
          omega
      · rw [if_neg h0]
        exact fun h => absurd h (List.not_mem_nil a)
    · rw [hxsF]
      exact xpairs_nodup nJ nRho nL j rho l hj hrho hl (List.range nJ)
        (List.nodup_range _) (fun i hi => List.mem_range.mp hi)
    · intro a ha hx
      have hrg := hxrange a hx
      rcases List.mem_append.mp ha with ha | ha
      · simp only [List.mem_cons, List.not_mem_nil, or_false] at ha
        rcases ha with rfl | rfl | rfl
        · omega
        · omega
        · omega
      · by_cases h0 : 0 < l
        · rw [if_pos h0] at ha
          have : a = posY nJ nRho nL j rho (l - 1) := by simpa using ha
          subst this
          omega
        · rw [if_neg h0] at ha
          exact absurd ha (List.not_mem_nil a)
  have hlenv : (List.replicate ((plannerRI nJ nRho nL).get_row_len) (0 : ℚ)).length =
      (plannerRI nJ nRho nL).get_row_len := List.length_replicate _ _
  have hval_mem : ∀ q : Nat × ℚ, q ∈ A → q.1 < (plannerRI nJ nRho nL).get_row_len →
      (applyAssignments (List.replicate ((plannerRI nJ nRho nL).get_row_len) (0 : ℚ)) A).getD q.1 0 = q.2 := by
    intro q hq hlt
    exact applyAssignments_getD_mem 0 A _ q hndA hq (by rw [hlenv]; exact hlt)
  have hval_not : ∀ p, p ∉ A.map Prod.fst →
      (applyAssignments (List.replicate ((plannerRI nJ nRho nL).get_row_len) (0 : ℚ)) A).getD p 0 = 0 := by
    intro p hp
    rw [applyAssignments_getD_not_mem 0 A _ p hp]
    rcases Nat.lt_or_ge p ((plannerRI nJ nRho nL).get_row_len) with h | h
    · simp [List.getD_eq_getElem?_getD, List.getElem?_replicate, h]
    · simp [List.getD_eq_getElem?_getD, List.getElem?_replicate,
        Nat.not_lt.mpr h]
  intro p hp
  by_cases hb : p = posG nJ nRho nL j rho l ∨ p = posY nJ nRho nL j rho l ∨
      p = posZ nJ nRho nL j rho l
  · rw [eqCoeff, if_pos hb]
    rcases hb with rfl | rfl | rfl
    · exact hval_mem (posG nJ nRho nL j rho l, 1)
        (List.mem_append_left _ (List.mem_append_left _ (by simp))) (by omega)
    · exact hval_mem (posY nJ nRho nL j rho l, 1)
        (List.mem_append_left _ (List.mem_append_left _ (by simp))) (by omega)
    · exact hval_mem (posZ nJ nRho nL j rho l, 1)
        (List.mem_append_left _ (List.mem_append_left _ (by simp))) (by omega)
  · by_cases hpv : 0 < l ∧ p = posY nJ nRho nL j rho (l - 1)
    · rw [eqCoeff, if_neg hb, if_pos hpv]
      obtain ⟨h0, rfl⟩ := hpv
      exact hval_mem (posY nJ nRho nL j rho (l - 1), -1)
        (List.mem_append_left _ (List.mem_append_right _ (by simp [hprevL, h0])))
        (by omega)
    · by_cases hout : ∃ i < nJ, i ≠ j ∧ p = posX nJ nRho nL j i rho l
      · rw [eqCoeff, if_neg hb, if_neg hpv, if_pos hout]
        obtain ⟨i, hi, hij, rfl⟩ := hout
        have := hr4 j i hj hi
        refine hval_mem (posX nJ nRho nL j i rho l, 1)
          (List.mem_append_right _ ?_) (by rw [eX] at *; omega)
        rw [hxsL]
        exact List.mem_flatten.mpr ⟨_, List.mem_map.mpr
          ⟨i, List.mem_range.mpr hi, rfl⟩, by simp [hij]⟩
      · by_cases hin : ∃ i < nJ, i ≠ j ∧ p = posX nJ nRho nL i j rho l
        · rw [eqCoeff, if_neg hb, if_neg hpv, if_neg hout, if_pos hin]
          obtain ⟨i, hi, hij, rfl⟩ := hin
          have := hr4 i j hi hj
          refine hval_mem (posX nJ nRho nL i j rho l, -1)
            (List.mem_append_right _ ?_) (by rw [eX] at *; omega)
          rw [hxsL]
          exact List.mem_flatten.mpr ⟨_, List.mem_map.mpr
            ⟨i, List.mem_range.mpr hi, rfl⟩, by simp [hij]⟩
        · rw [eqCoeff, if_neg hb, if_neg hpv, if_neg hout, if_neg hin]
          apply hval_not
          rw [hAfst]
          intro hmem
          rcases List.mem_append.mp hmem with hmem | hmem
          · rcases List.mem_append.mp hmem with hmem | hmem
            · exact hb (by simpa using hmem)
            · by_cases h0 : 0 < l
              · rw [if_pos h0] at hmem
                exact hpv ⟨h0, by simpa using hmem⟩
              · rw [if_neg h0] at hmem
                exact absurd hmem (List.not_mem_nil p)
          · obtain ⟨i, hi, hij, hpe⟩ := (hxmem p).mp hmem
            rcases hpe with rfl | rfl
            · exact hin ⟨i, hi, hij, rfl⟩
            · exact hout ⟨i, hi, hij, rfl⟩

theorem allTriples_mem (nJ nRho nL : Nat) (t : Nat × Nat × Nat) :
    t ∈ allTriples nJ nRho nL ↔ t.1 < nJ ∧ t.2.1 < nRho ∧ t.2.2 < nL := by
  obtain ⟨a, b, c⟩ := t
  simp only [allTriples, List.mem_flatMap, List.mem_range, List.mem_map]
  constructor
  · rintro ⟨j', hj', rho', hrho', l', hl', heq⟩
    obtain ⟨rfl, rfl, rfl⟩ := Prod.mk.injEq .. ▸ heq
    cases heq
    exact ⟨hj', hrho', hl'⟩
  · rintro ⟨h1, h2, h3⟩
    exact ⟨a, h1, b, h2, c, h3, rfl⟩

set_option maxHeartbeats 2000000 in
/-- C1: for every `(j, rho, l)` in the index domain of `x_eq`, the planner's
equality system holds exactly one equation for that tuple — row number
`(j·|rho| + rho)·|l| + l` of a system with one row per tuple — whose
coefficient vector has length `rowLen`, carries `+1` at the positions of
`g`, `y`, `z` at `(j, rho, l)`, `-1` at `y[j, rho, l-1]` when `l > 0`,
`+1` at each outbound transfer `x[j, i, rho, l]` and `-1` at each inbound
transfer `x[i, j, rho, l]` for `i ≠ j`, and `0` everywhere else, and whose
right-hand side is the stored `x_eq[j, rho, l]`. -/
theorem c1_balance_system (d : DataStore) (nJ nRho nL j rho l : Nat)
    (hj : j < nJ) (hrho : rho < nRho) (hl : l < nL) :
    ∃ rows, makeEq d nJ nRho nL = some rows ∧
      rows.length = nJ * nRho * nL ∧
      ∃ row, rows.getD (rank3 nRho nL j rho l) ([], 0) = row ∧
        makeEqLhsRhs d nJ nRho nL j rho l = some row ∧
        row.1.length = (plannerRI nJ nRho nL).get_row_len ∧
        row.2 = getZero d "x_eq" [j, rho, l] ∧
        (∀ p, p < (plannerRI nJ nRho nL).get_row_len →
          row.1.getD p 0 = eqCoeff nJ nRho nL j rho l p) := by
  have hall : ∀ t ∈ allTriples nJ nRho nL,
      (fun t : Nat × Nat × Nat => makeEqLhsRhs d nJ nRho nL t.1 t.2.1 t.2.2) t =
        some ((makeEqLhsRhs d nJ nRho nL t.1 t.2.1 t.2.2).getD ([], 0)) := by
    intro t ht
    obtain ⟨h1, h2, h3⟩ := (allTriples_mem nJ nRho nL t).mp ht
    show makeEqLhsRhs d nJ nRho nL t.1 t.2.1 t.2.2 =
      some ((makeEqLhsRhs d nJ nRho nL t.1 t.2.1 t.2.2).getD ([], 0))
    rw [makeEqLhsRhs_eval d nJ nRho nL t.1 t.2.1 t.2.2 h1 h2 h3]
    rfl
  have hmapM := mapM_eq_some _ _ (allTriples nJ nRho nL) hall
  have hlenT := allTriples_length nJ nRho nL
  have hrk : rank3 nRho nL j rho l < (allTriples nJ nRho nL).length := by
    rw [hlenT]
    have := rank3_lt nJ nRho nL j rho l hj hrho hl
    rw [sB] at this
    exact this
  have hTget : (allTriples nJ nRho nL)[rank3 nRho nL j rho l]? = some (j, rho, l) := by
    rw [List.getElem?_eq_getElem hrk]
    have h1 := allTriples_getD nJ nRho nL j rho l hj hrho hl
    rw [List.getD_eq_getElem?_getD, List.getElem?_eq_getElem hrk] at h1
    exact congrArg some h1
  refine ⟨_, by rw [makeEq]; exact hmapM, ?_, ?_⟩
  · rw [List.length_map, hlenT]
    ring
  · refine ⟨(applyAssignments
        (List.replicate (plannerRI nJ nRho nL).get_row_len (0 : ℚ))
        ([(posG nJ nRho nL j rho l, (1 : ℚ)), (posY nJ nRho nL j rho l, 1),
          (posZ nJ nRho nL j rho l, 1)] ++
         (if 0 < l then [(posY nJ nRho nL j rho (l - 1), (-1 : ℚ))] else []) ++
         ((List.range nJ).map fun i =>
            if i = j then []
            else [(posX nJ nRho nL i j rho l, (-1 : ℚ)),
                  (posX nJ nRho nL j i rho l, (1 : ℚ))]).flatten),
        getZero d "x_eq" [j, rho, l]), ?_, ?_, ?_, ?_, ?_⟩
    · rw [List.getD_eq_getElem?_getD, List.getElem?_map, hTget]
      show (makeEqLhsRhs d nJ nRho nL j rho l).getD ([], 0) = _
      rw [makeEqLhsRhs_eval d nJ nRho nL j rho l hj hrho hl]
      rfl
    · exact makeEqLhsRhs_eval d nJ nRho nL j rho l hj hrho hl
    · show (applyAssignments _ _).length = _
      rw [applyAssignments_length, List.length_replicate]
    · rfl
    · intro p hp
      exact eqRow_getD nJ nRho nL j rho l hj hrho hl p hp

/-- Witness for `c1_balance_system` on a two-node, one-load, one-interval
instance with an empty data store. -/
theorem c1_balance_system_witness :
    ∃ rows, makeEq ([] : DataStore) 2 1 1 = some rows ∧
      rows.length = 2 * 1 * 1 ∧
      ∃ row, rows.getD (rank3 1 1 0 0 0) ([], 0) = row ∧
        makeEqLhsRhs ([] : DataStore) 2 1 1 0 0 0 = some row ∧
        row.1.length = (plannerRI 2 1 1).get_row_len ∧
        row.2 = getZero ([] : DataStore) "x_eq" [0, 0, 0] ∧
        (∀ p, p < (plannerRI 2 1 1).get_row_len →
          row.1.getD p 0 = eqCoeff 2 1 1 0 0 0 p) :=
  c1_balance_system ([] : DataStore) 2 1 1 0 0 0 (by decide) (by decide) (by decide)

theorem nodup_flatMap_range {α : Type} (n : Nat) (f : Nat → List α)
    (tag : α → Nat) (hf : ∀ i, i < n → (f i).Nodup)
    (htag : ∀ i, i < n → ∀ a ∈ f i, tag a = i) :
    ((List.range n).flatMap f).Nodup := by
  rw [List.nodup_flatMap]
  constructor
  · intro i hi
    exact hf i (List.mem_range.mp hi)
  · refine List.Pairwise.imp_of_mem ?_ (List.pairwise_lt_range n)
    intro i i' hi hi' hlt a ha ha'
    have h1 := htag i (List.mem_range.mp hi) a ha
    have h2 := htag i' (List.mem_range.mp hi') a ha'
    omega

theorem allTriples_nodup (nJ nRho nL : Nat) : (allTriples nJ nRho nL).Nodup := by
  rw [allTriples]
  refine nodup_flatMap_range nJ _ (fun t => t.1) ?_ ?_
  · intro j _
    refine nodup_flatMap_range nRho _ (fun t => t.2.1) ?_ ?_
    · intro rho _
      refine List.Nodup.map ?_ (List.nodup_range nL)
      intro a b hab
      simpa using hab
    · intro rho _ a ha
      obtain ⟨l', _, rfl⟩ := List.mem_map.mp ha
      rfl
  · intro j _ a ha
    rw [List.mem_flatMap] at ha
    obtain ⟨rho, _, ha⟩ := ha
    obtain ⟨l', _, rfl⟩ := List.mem_map.mp ha
    rfl

theorem allQuads_mem (nJ nI nRho nL : Nat) (t : Nat × Nat × Nat × Nat) :
    t ∈ allQuads nJ nI nRho nL ↔
      t.1 < nJ ∧ t.2.1 < nI ∧ t.2.2.1 < nRho ∧ t.2.2.2 < nL := by
  obtain ⟨a, b, c, e⟩ := t
  simp only [allQuads, List.mem_flatMap, List.mem_range, List.mem_map]
  constructor
  · rintro ⟨j', hj', i', hi', rho', hrho', l', hl', heq⟩
    cases heq
    exact ⟨hj', hi', hrho', hl'⟩
  · rintro ⟨h1, h2, h3, h4⟩
    exact ⟨a, h1, b, h2, c, h3, e, h4, rfl⟩

theorem allQuads_nodup (nJ nI nRho nL : Nat) : (allQuads nJ nI nRho nL).Nodup := by
  rw [allQuads]
  refine nodup_flatMap_range nJ _ (fun t => t.1) ?_ ?_
  · intro j _
    refine nodup_flatMap_range nI _ (fun t => t.2.1) ?_ ?_
    · intro i _
      refine nodup_flatMap_range nRho _ (fun t => t.2.2.1) ?_ ?_
      · intro rho _
        refine List.Nodup.map ?_ (List.nodup_range nL)
        intro a b hab
        simpa using hab
      · intro rho _ a ha
        obtain ⟨l', _, rfl⟩ := List.mem_map.mp ha
        rfl
    · intro i _ a ha
      rw [List.mem_flatMap] at ha
      obtain ⟨rho, _, ha⟩ := ha
      obtain ⟨l', _, rfl⟩ := List.mem_map.mp ha
      rfl
  · intro j _ a ha
    rw [List.mem_flatMap] at ha
    obtain ⟨i, _, ha⟩ := ha
    rw [List.mem_flatMap] at ha
    obtain ⟨rho, _, ha⟩ := ha
    obtain ⟨l', _, rfl⟩ := List.mem_map.mp ha
    rfl

theorem posY_inj {nJ nRho nL j rho l j' rho' l' : Nat} (hrho : rho < nRho)
    (hl : l < nL) (hrho' : rho' < nRho) (hl' : l' < nL)
    (h : posY nJ nRho nL j rho l = posY nJ nRho nL j' rho' l') :
    j = j' ∧ rho = rho' ∧ l = l' := by
  have h3 : rank3 nRho nL j rho l = rank3 nRho nL j' rho' l' := by
    rw [posY, posY] at h
    omega
  exact rank3_inj hrho hl hrho' hl' h3

theorem posG_inj {nJ nRho nL j rho l j' rho' l' : Nat} (hrho : rho < nRho)
    (hl : l < nL) (hrho' : rho' < nRho) (hl' : l' < nL)
    (h : posG nJ nRho nL j rho l = posG nJ nRho nL j' rho' l') :
    j = j' ∧ rho = rho' ∧ l = l' :=
  rank3_inj hrho hl hrho' hl' h

theorem posZ_inj {nJ nRho nL j rho l j' rho' l' : Nat} (hrho : rho < nRho)
    (hl : l < nL) (hrho' : rho' < nRho) (hl' : l' < nL)
    (h : posZ nJ nRho nL j rho l = posZ nJ nRho nL j' rho' l') :
    j = j' ∧ rho = rho' ∧ l = l' := by
  have h3 : rank3 nRho nL j rho l = rank3 nRho nL j' rho' l' := by
    rw [posZ, posZ] at h
    omega
  exact rank3_inj hrho hl hrho' hl' h3

/-- C4 (amended): in the planner's bound matrix every lower bound is `0`; the
upper bound at the position of `x[j,i,rho,l]` is the zeroing value of
`psi[j,i,rho,l]`, at `y[j,rho,l]` the zeroing value of `v[j,rho,l]` — the
capacity variable is named `v`, not `v_mem` — and at `g[j,rho,l]` the zeroing
value of `phi[j,rho,l]`; every `z` position keeps the upper bound `+∞`
(modelled as `none`); and an absent capacity entry yields upper bound `0`,
pinning the variable. -/
theorem c4_bound_matrix (d : DataStore) (nJ nRho nL : Nat) :
    ∃ bnd, initBndMatrix d nJ nRho nL = some bnd ∧
      bnd.length = (plannerRI nJ nRho nL).get_row_len ∧
      (∀ p, p < (plannerRI nJ nRho nL).get_row_len →
        (bnd.getD p (0, none)).1 = 0) ∧
      (∀ j i rho l, j < nJ → i < nJ → rho < nRho → l < nL →
        bnd.getD (posX nJ nRho nL j i rho l) (0, none) =
          (0, some (getZero d "psi" [j, i, rho, l]))) ∧
      (∀ j rho l, j < nJ → rho < nRho → l < nL →
        bnd.getD (posY nJ nRho nL j rho l) (0, none) =
          (0, some (getZero d "v" [j, rho, l]))) ∧
      (∀ j rho l, j < nJ → rho < nRho → l < nL →
        bnd.getD (posG nJ nRho nL j rho l) (0, none) =
          (0, some (getZero d "phi" [j, rho, l]))) ∧
      (∀ j rho l, j < nJ → rho < nRho → l < nL →
        bnd.getD (posZ nJ nRho nL j rho l) (0, none) = (0, none)) ∧
      (∀ v idx, dsFind d v idx = none → getZero d v idx = 0) := by
  have eRow := rowLenP_eq nJ nRho nL
  have hx : (allQuads nJ nJ nRho nL).mapM (fun q => do
      let p ← (plannerRI nJ nRho nL).get_pos "x" (eqIdx4 q.1 q.2.1 q.2.2.1 q.2.2.2)
      pure (p, getZero d "psi" [q.1, q.2.1, q.2.2.1, q.2.2.2])) =
      some ((allQuads nJ nJ nRho nL).map fun q =>
        (posX nJ nRho nL q.1 q.2.1 q.2.2.1 q.2.2.2,
         getZero d "psi" [q.1, q.2.1, q.2.2.1, q.2.2.2])) := by
    apply mapM_eq_some
    intro q hq
    obtain ⟨h1, h2, h3, h4⟩ := (allQuads_mem nJ nJ nRho nL q).mp hq
    show ((plannerRI nJ nRho nL).get_pos "x" (eqIdx4 q.1 q.2.1 q.2.2.1 q.2.2.2)).bind _ = _
    rw [get_pos_x nJ nRho nL q.1 q.2.1 q.2.2.1 q.2.2.2 h1 h2 h3 h4]
    rfl
  have hy : (allTriples nJ nRho nL).mapM (fun t => do
      let p ← (plannerRI nJ nRho nL).get_pos "y" (eqIdx3 t.1 t.2.1 t.2.2)
      pure (p, getZero d "v" [t.1, t.2.1, t.2.2])) =
      some ((allTriples nJ nRho nL).map fun t =>
        (posY nJ nRho nL t.1 t.2.1 t.2.2, getZero d "v" [t.1, t.2.1, t.2.2])) := by
    apply mapM_eq_some
    intro t ht
    obtain ⟨h1, h2, h3⟩ := (allTriples_mem nJ nRho nL t).mp ht
    show ((plannerRI nJ nRho nL).get_pos "y" (eqIdx3 t.1 t.2.1 t.2.2)).bind _ = _
    rw [get_pos_y nJ nRho nL t.1 t.2.1 t.2.2 h1 h2 h3]
    rfl
  have hg : (allTriples nJ nRho nL).mapM (fun t => do
      let p ← (plannerRI nJ nRho nL).get_pos "g" (eqIdx3 t.1 t.2.1 t.2.2)
      pure (p, getZero d "phi" [t.1, t.2.1, t.2.2])) =
      some ((allTriples nJ nRho nL).map fun t =>
        (posG nJ nRho nL t.1 t.2.1 t.2.2, getZero d "phi" [t.1, t.2.1, t.2.2])) := by
    apply mapM_eq_some
    intro t ht
    obtain ⟨h1, h2, h3⟩ := (allTriples_mem nJ nRho nL t).mp ht
    show ((plannerRI nJ nRho nL).get_pos "g" (eqIdx3 t.1 t.2.1 t.2.2)).bind _ = _
    rw [get_pos_g nJ nRho nL t.1 t.2.1 t.2.2 h1 h2 h3]
    rfl
  have heval : initBndMatrix d nJ nRho nL =
      some (applyAssignments
        (List.replicate ((plannerRI nJ nRho nL).get_row_len) ((0 : ℚ), (none : Option ℚ)))
        ((((allQuads nJ nJ nRho nL).map fun q =>
            (posX nJ nRho nL q.1 q.2.1 q.2.2.1 q.2.2.2,
             getZero d "psi" [q.1, q.2.1, q.2.2.1, q.2.2.2])) ++
          ((allTriples nJ nRho nL).map fun t =>
            (posY nJ nRho nL t.1 t.2.1 t.2.2, getZero d "v" [t.1, t.2.1, t.2.2])) ++
          ((allTriples nJ nRho nL).map fun t =>
            (posG nJ nRho nL t.1 t.2.1 t.2.2, getZero d "phi" [t.1, t.2.1, t.2.2]))).map
          fun q => (q.1, ((0 : ℚ), some q.2)))) := by
    rw [initBndMatrix]
    simp only [Option.pure_def, Option.bind_eq_bind] at hx hy hg ⊢
    rw [hx]
    simp only [Option.some_bind]
    rw [hy]
    simp only [Option.some_bind]
    rw [hg]
    simp only [Option.some_bind]
  have hrep : ∀ p, (List.replicate ((plannerRI nJ nRho nL).get_row_len)
      ((0 : ℚ), (none : Option ℚ))).getD p (0, none) = (0, none) := by
    intro p
    rcases Nat.lt_or_ge p ((plannerRI nJ nRho nL).get_row_len) with h | h
    · simp [List.getD_eq_getElem?_getD, List.getElem?_replicate, h]
    · simp [List.getD_eq_getElem?_getD, List.getElem?_replicate, Nat.not_lt.mpr h]
  have hKfst : (((((allQuads nJ nJ nRho nL).map fun q =>
        (posX nJ nRho nL q.1 q.2.1 q.2.2.1 q.2.2.2,
         getZero d "psi" [q.1, q.2.1, q.2.2.1, q.2.2.2])) ++
      ((allTriples nJ nRho nL).map fun t =>
        (posY nJ nRho nL t.1 t.2.1 t.2.2, getZero d "v" [t.1, t.2.1, t.2.2])) ++
      ((allTriples nJ nRho nL).map fun t =>
        (posG nJ nRho nL t.1 t.2.1 t.2.2, getZero d "phi" [t.1, t.2.1, t.2.2]))).map
      fun q => (q.1, ((0 : ℚ), some q.2))).map Prod.fst) =
      ((allQuads nJ nJ nRho nL).map fun q =>
        posX nJ nRho nL q.1 q.2.1 q.2.2.1 q.2.2.2) ++
      ((allTriples nJ nRho nL).map fun t => posY nJ nRho nL t.1 t.2.1 t.2.2) ++
      ((allTriples nJ nRho nL).map fun t => posG nJ nRho nL t.1 t.2.1 t.2.2) := by
    simp only [List.map_map, List.map_append]
    rfl
  have hxRange : ∀ a ∈ (allQuads nJ nJ nRho nL).map fun q =>
      posX nJ nRho nL q.1 q.2.1 q.2.2.1 q.2.2.2,
      2 * sB nJ nRho nL ≤ a ∧ a < 2 * sB nJ nRho nL + sX nJ nRho nL := by
    intro a ha
    obtain ⟨q, hq, rfl⟩ := List.mem_map.mp ha
    obtain ⟨h1, h2, h3, h4⟩ := (allQuads_mem nJ nJ nRho nL q).mp hq
    have := rank4_lt nJ nRho nL q.1 q.2.1 q.2.2.1 q.2.2.2 h1 h2 h3 h4
    have hx : posX nJ nRho nL q.1 q.2.1 q.2.2.1 q.2.2.2 =
      2 * sB nJ nRho nL + rank4 nJ nRho nL q.1 q.2.1 q.2.2.1 q.2.2.2 := rfl
    omega
  have hyRange : ∀ a ∈ (allTriples nJ nRho nL).map fun t =>
      posY nJ nRho nL t.1 t.2.1 t.2.2,
      2 * sB nJ nRho nL + sX nJ nRho nL ≤ a ∧
        a < 3 * sB nJ nRho nL + sX nJ nRho nL := by
    intro a ha
    obtain ⟨t, ht, rfl⟩ := List.mem_map.mp ha
    obtain ⟨h1, h2, h3⟩ := (allTriples_mem nJ nRho nL t).mp ht
    have := rank3_lt nJ nRho nL t.1 t.2.1 t.2.2 h1 h2 h3
    have hyv : posY nJ nRho nL t.1 t.2.1 t.2.2 =
      2 * sB nJ nRho nL + sX nJ nRho nL + rank3 nRho nL t.1 t.2.1 t.2.2 := rfl
    omega
  have hgRange : ∀ a ∈ (allTriples nJ nRho nL).map fun t =>
      posG nJ nRho nL t.1 t.2.1 t.2.2, a < sB nJ nRho nL := by
    intro a ha
    obtain ⟨t, ht, rfl⟩ := List.mem_map.mp ha
    obtain ⟨h1, h2, h3⟩ := (allTriples_mem nJ nRho nL t).mp ht
    exact rank3_lt nJ nRho nL t.1 t.2.1 t.2.2 h1 h2 h3
  have hndX : ((allQuads nJ nJ nRho nL).map fun q =>
      posX nJ nRho nL q.1 q.2.1 q.2.2.1 q.2.2.2).Nodup := by
    refine List.Nodup.map_on ?_ (allQuads_nodup nJ nJ nRho nL)
    intro q hq q' hq' he
    obtain ⟨h1, h2, h3, h4⟩ := (allQuads_mem nJ nJ nRho nL q).mp hq
    obtain ⟨h1', h2', h3', h4'⟩ := (allQuads_mem nJ nJ nRho nL q').mp hq'
    obtain ⟨e1, e2, e3, e4⟩ := posX_inj h2 h3 h4 h2' h3' h4' he
    obtain ⟨a, b, c, e⟩ := q
    obtain ⟨a', b', c', e'⟩ := q'
    simp_all
  have hndY : ((allTriples nJ nRho nL).map fun t =>
      posY nJ nRho nL t.1 t.2.1 t.2.2).Nodup := by
    refine List.Nodup.map_on ?_ (allTriples_nodup nJ nRho nL)
    intro t ht t' ht' he
    obtain ⟨h1, h2, h3⟩ := (allTriples_mem nJ nRho nL t).mp ht
    obtain ⟨h1', h2', h3'⟩ := (allTriples_mem nJ nRho nL t').mp ht'
    obtain ⟨e1, e2, e3⟩ := posY_inj h2 h3 h2' h3' he
    obtain ⟨a, b, c⟩ := t
    obtain ⟨a', b', c'⟩ := t'
    simp_all
  have hndG : ((allTriples nJ nRho nL).map fun t =>
      posG nJ nRho nL t.1 t.2.1 t.2.2).Nodup := by
    refine List.Nodup.map_on ?_ (allTriples_nodup nJ nRho nL)
    intro t ht t' ht' he
    obtain ⟨h1, h2, h3⟩ := (allTriples_mem nJ nRho nL t).mp ht
    obtain ⟨h1', h2', h3'⟩ := (allTriples_mem nJ nRho nL t').mp ht'
    obtain ⟨e1, e2, e3⟩ := posG_inj h2 h3 h2' h3' he
    obtain ⟨a, b, c⟩ := t
    obtain ⟨a', b', c'⟩ := t'
    simp_all
  have hndK : ((((((allQuads nJ nJ nRho nL).map fun q =>
        (posX nJ nRho nL q.1 q.2.1 q.2.2.1 q.2.2.2,
         getZero d "psi" [q.1, q.2.1, q.2.2.1, q.2.2.2])) ++
      ((allTriples nJ nRho nL).map fun t =>
        (posY nJ nRho nL t.1 t.2.1 t.2.2, getZero d "v" [t.1, t.2.1, t.2.2])) ++
      ((allTriples nJ nRho nL).map fun t =>
        (posG nJ nRho nL t.1 t.2.1 t.2.2, getZero d "phi" [t.1, t.2.1, t.2.2]))).map
      fun q => (q.1, ((0 : ℚ), some q.2))).map Prod.fst)).Nodup := by
    rw [hKfst, List.nodup_append, List.nodup_append]
    refine ⟨⟨hndX, hndY, ?_⟩, hndG, ?_⟩
    · intro a hax hay
      have r1 := hxRange a hax
      have r2 := hyRange a hay
      omega
    · intro a ha hag
      have r3 := hgRange a hag
      have hr0 : 0 < sB nJ nRho nL := by omega
      rcases List.mem_append.mp ha with ha | ha
      · have r1 := hxRange a ha
        omega
      · have r2 := hyRange a ha
        omega
  have hval : ∀ w : Nat × ℚ,
      w ∈ (((allQuads nJ nJ nRho nL).map fun q =>
            (posX nJ nRho nL q.1 q.2.1 q.2.2.1 q.2.2.2,
             getZero d "psi" [q.1, q.2.1, q.2.2.1, q.2.2.2])) ++
          ((allTriples nJ nRho nL).map fun t =>
            (posY nJ nRho nL t.1 t.2.1 t.2.2, getZero d "v" [t.1, t.2.1, t.2.2])) ++
          ((allTriples nJ nRho nL).map fun t =>
            (posG nJ nRho nL t.1 t.2.1 t.2.2, getZero d "phi" [t.1, t.2.1, t.2.2]))) →
      w.1 < (plannerRI nJ nRho nL).get_row_len →
      (applyAssignments
        (List.replicate ((plannerRI nJ nRho nL).get_row_len) ((0 : ℚ), (none : Option ℚ)))
        ((((allQuads nJ nJ nRho nL).map fun q =>
            (posX nJ nRho nL q.1 q.2.1 q.2.2.1 q.2.2.2,
             getZero d "psi" [q.1, q.2.1, q.2.2.1, q.2.2.2])) ++
          ((allTriples nJ nRho nL).map fun t =>
            (posY nJ nRho nL t.1 t.2.1 t.2.2, getZero d "v" [t.1, t.2.1, t.2.2])) ++
          ((allTriples nJ nRho nL).map fun t =>
            (posG nJ nRho nL t.1 t.2.1 t.2.2, getZero d "phi" [t.1, t.2.1, t.2.2]))).map
          fun q => (q.1, ((0 : ℚ), some q.2)))).getD w.1 (0, none) =
        ((0 : ℚ), some w.2) := by
    intro w hw hlt
    exact applyAssignments_getD_mem _ _ _ (w.1, ((0 : ℚ), some w.2)) hndK
      (List.mem_map.mpr ⟨w, hw, rfl⟩) (by rw [List.length_replicate]; exact hlt)
  refine ⟨_, heval, ?_, ?_, ?_, ?_, ?_, ?_, ?_⟩
  · show (applyAssignments _ _).length = _
    rw [applyAssignments_length, List.length_replicate]
  · intro p hp
    by_cases hmem : p ∈ (((((allQuads nJ nJ nRho nL).map fun q =>
          (posX nJ nRho nL q.1 q.2.1 q.2.2.1 q.2.2.2,
           getZero d "psi" [q.1, q.2.1, q.2.2.1, q.2.2.2])) ++
        ((allTriples nJ nRho nL).map fun t =>
          (posY nJ nRho nL t.1 t.2.1 t.2.2, getZero d "v" [t.1, t.2.1, t.2.2])) ++
        ((allTriples nJ nRho nL).map fun t =>
          (posG nJ nRho nL t.1 t.2.1 t.2.2, getZero d "phi" [t.1, t.2.1, t.2.2]))).map
        fun q => (q.1, ((0 : ℚ), some q.2))).map Prod.fst)
    · obtain ⟨q, hq, hq1⟩ := List.mem_map.mp hmem
      obtain ⟨w, hw, rfl⟩ := List.mem_map.mp hq
      have hlt : w.1 < (plannerRI nJ nRho nL).get_row_len := by
        rcases List.mem_append.mp hw with hw | hw
        · rcases List.mem_append.mp hw with hw | hw
          · obtain ⟨q', hq', rfl⟩ := List.mem_map.mp hw
            have := hxRange _ (List.mem_map.mpr ⟨q', hq', rfl⟩)
            omega
          · obtain ⟨t', ht', rfl⟩ := List.mem_map.mp hw
            have := hyRange _ (List.mem_map.mpr ⟨t', ht', rfl⟩)
            omega
        · obtain ⟨t', ht', rfl⟩ := List.mem_map.mp hw
          have := hgRange _ (List.mem_map.mpr ⟨t', ht', rfl⟩)
          omega
      rw [← hq1]
      have := applyAssignments_getD_mem ((0 : ℚ), (none : Option ℚ)) _
        (List.replicate ((plannerRI nJ nRho nL).get_row_len) ((0 : ℚ), (none : Option ℚ)))
        (w.1, ((0 : ℚ), some w.2)) hndK (List.mem_map.mpr ⟨w, hw, rfl⟩)
        (by rw [List.length_replicate]; exact hlt)
      rw [this]
    · rw [applyAssignments_getD_not_mem _ _ _ _ hmem, hrep]
  · intro j i rho l hj hi hrho hl
    have hr4 := rank4_lt nJ nRho nL j i rho l hj hi hrho hl
    have hxe : posX nJ nRho nL j i rho l =
      2 * sB nJ nRho nL + rank4 nJ nRho nL j i rho l := rfl
    exact hval (posX nJ nRho nL j i rho l, getZero d "psi" [j, i, rho, l])
      (List.mem_append_left _ (List.mem_append_left _ (List.mem_map.mpr
        ⟨(j, i, rho, l), (allQuads_mem nJ nJ nRho nL (j, i, rho, l)).mpr
          ⟨hj, hi, hrho, hl⟩, rfl⟩)))
      (by show posX nJ nRho nL j i rho l < (plannerRI nJ nRho nL).get_row_len
          omega)
  · intro j rho l hj hrho hl
    have hr3 := rank3_lt nJ nRho nL j rho l hj hrho hl
    have hye : posY nJ nRho nL j rho l =
      2 * sB nJ nRho nL + sX nJ nRho nL + rank3 nRho nL j rho l := rfl
    exact hval (posY nJ nRho nL j rho l, getZero d "v" [j, rho, l])
      (List.mem_append_left _ (List.mem_append_right _ (List.mem_map.mpr
        ⟨(j, rho, l), (allTriples_mem nJ nRho nL (j, rho, l)).mpr
          ⟨hj, hrho, hl⟩, rfl⟩)))
      (by show posY nJ nRho nL j rho l < (plannerRI nJ nRho nL).get_row_len
          omega)
  · intro j rho l hj hrho hl
    have hr3 := rank3_lt nJ nRho nL j rho l hj hrho hl
    exact hval (posG nJ nRho nL j rho l, getZero d "phi" [j, rho, l])
      (List.mem_append_right _ (List.mem_map.mpr
        ⟨(j, rho, l), (allTriples_mem nJ nRho nL (j, rho, l)).mpr
          ⟨hj, hrho, hl⟩, rfl⟩))
      (by show posG nJ nRho nL j rho l < (plannerRI nJ nRho nL).get_row_len
          have heg : posG nJ nRho nL j rho l = rank3 nRho nL j rho l := rfl
          omega)
  · intro j rho l hj hrho hl
    have hze : posZ nJ nRho nL j rho l =
      sB nJ nRho nL + rank3 nRho nL j rho l := rfl
    have hr3 := rank3_lt nJ nRho nL j rho l hj hrho hl
    have hz : posZ nJ nRho nL j rho l ∉
        (((((allQuads nJ nJ nRho nL).map fun q =>
            (posX nJ nRho nL q.1 q.2.1 q.2.2.1 q.2.2.2,
             getZero d "psi" [q.1, q.2.1, q.2.2.1, q.2.2.2])) ++
          ((allTriples nJ nRho nL).map fun t =>
            (posY nJ nRho nL t.1 t.2.1 t.2.2, getZero d "v" [t.1, t.2.1, t.2.2])) ++
          ((allTriples nJ nRho nL).map fun t =>
            (posG nJ nRho nL t.1 t.2.1 t.2.2, getZero d "phi" [t.1, t.2.1, t.2.2]))).map
          fun q => (q.1, ((0 : ℚ), some q.2))).map Prod.fst) := by
      rw [hKfst]
      intro hmem
      rcases List.mem_append.mp hmem with hm | hm
      · rcases List.mem_append.mp hm with hm | hm
        · have := hxRange _ hm
          omega
        · have := hyRange _ hm
          omega
      · have := hgRange _ hm
        omega
    rw [applyAssignments_getD_not_mem _ _ _ _ hz, hrep]
  · intro v idx h
    rw [getZero, h]
    rfl

theorem c4_bound_matrix_witness :
    ∃ bnd, initBndMatrix c4Store 1 1 1 = some bnd ∧
      bnd.getD (posY 1 1 1 0 0 0) (0, none) =
        (0, some (getZero c4Store "v" [0, 0, 0])) := by
  obtain ⟨bnd, h1, _, _, _, h5, _, _, _⟩ := c4_bound_matrix c4Store 1 1 1
  exact ⟨bnd, h1, h5 0 0 0 (by decide) (by decide) (by decide)⟩

theorem c4_counterexample :
    (initBndMatrix c4Store 1 1 1).map
        (fun b => b.getD (posY 1 1 1 0 0 0) (0, none)) =
      some ((0 : ℚ), some (0 : ℚ)) ∧
    getZero c4Store "v_mem" [0, 0, 0] = 5 ∧
    some ((0 : ℚ), some (0 : ℚ)) ≠
      some ((0 : ℚ), some (getZero c4Store "v_mem" [0, 0, 0])) := by
  exact ⟨by decide, by decide, by decide⟩

theorem gzpairs_nodup (nJ nRho nL : Nat) :
    (((allTriples nJ nRho nL).map fun t =>
      [posG nJ nRho nL t.1 t.2.1 t.2.2,
       posZ nJ nRho nL t.1 t.2.1 t.2.2]).flatten).Nodup := by
  rw [List.nodup_flatten]
  constructor
  · intro bl hbl
    obtain ⟨t, ht, rfl⟩ := List.mem_map.mp hbl
    obtain ⟨h1, h2, h3⟩ := (allTriples_mem nJ nRho nL t).mp ht
    have hr3 := rank3_lt nJ nRho nL t.1 t.2.1 t.2.2 h1 h2 h3
    have heg : posG nJ nRho nL t.1 t.2.1 t.2.2 = rank3 nRho nL t.1 t.2.1 t.2.2 := rfl
    have hez : posZ nJ nRho nL t.1 t.2.1 t.2.2 =
      sB nJ nRho nL + rank3 nRho nL t.1 t.2.1 t.2.2 := rfl
    refine List.nodup_cons.mpr ⟨?_, List.nodup_singleton _⟩
    simp only [List.mem_singleton]
    omega
  · rw [List.pairwise_map]
    refine List.Pairwise.imp_of_mem ?_ (allTriples_nodup nJ nRho nL)
    intro t t' ht ht' hne a ha ha'
    obtain ⟨h1, h2, h3⟩ := (allTriples_mem nJ nRho nL t).mp ht
    obtain ⟨h1', h2', h3'⟩ := (allTriples_mem nJ nRho nL t').mp ht'
    have hr3 := rank3_lt nJ nRho nL t.1 t.2.1 t.2.2 h1 h2 h3
    have hr3' := rank3_lt nJ nRho nL t'.1 t'.2.1 t'.2.2 h1' h2' h3'
    have hpe : a = posG nJ nRho nL t.1 t.2.1 t.2.2 ∨
        a = posZ nJ nRho nL t.1 t.2.1 t.2.2 := by simpa using ha
    have hpe' : a = posG nJ nRho nL t'.1 t'.2.1 t'.2.2 ∨
        a = posZ nJ nRho nL t'.1 t'.2.1 t'.2.2 := by simpa using ha'
    have heg : posG nJ nRho nL t.1 t.2.1 t.2.2 = rank3 nRho nL t.1 t.2.1 t.2.2 := rfl
    have hez : posZ nJ nRho nL t.1 t.2.1 t.2.2 =
      sB nJ nRho nL + rank3 nRho nL t.1 t.2.1 t.2.2 := rfl
    have heg' : posG nJ nRho nL t'.1 t'.2.1 t'.2.2 = rank3 nRho nL t'.1 t'.2.1 t'.2.2 := rfl
    have hez' : posZ nJ nRho nL t'.1 t'.2.1 t'.2.2 =
      sB nJ nRho nL + rank3 nRho nL t'.1 t'.2.1 t'.2.2 := rfl
    rcases hpe with rfl | rfl <;> rcases hpe' with hq | hq
    · obtain ⟨e1, e2, e3⟩ := posG_inj h2 h3 h2' h3' hq
      apply hne
      obtain ⟨a1, b1, c1⟩ := t
      obtain ⟨a2, b2, c2⟩ := t'
      simp_all
    · omega
    · omega
    · obtain ⟨e1, e2, e3⟩ := posZ_inj h2 h3 h2' h3' hq
      apply hne
      obtain ⟨a1, b1, c1⟩ := t
      obtain ⟨a2, b2, c2⟩ := t'
      simp_all

/-- C5: the planner's objective vector holds `-alpha_0` at every `g`
position and `+alpha_1` at every `z` position and `0` everywhere else, and
constructing it fails when either weight is within the `1e-6` tolerance of
zero. -/
theorem c5_objective (d : DataStore) (nJ nRho nL : Nat) :
    ((misclose relTolDefault absTolObj (-(getZero d "alpha_0" [])) 0 ∨
      misclose relTolDefault absTolObj (getZero d "alpha_1" []) 0) →
      initObj d nJ nRho nL = none) ∧
    (¬ misclose relTolDefault absTolObj (-(getZero d "alpha_0" [])) 0 →
     ¬ misclose relTolDefault absTolObj (getZero d "alpha_1" []) 0 →
      ∃ obj, initObj d nJ nRho nL = some obj ∧
        obj.length = (plannerRI nJ nRho nL).get_row_len ∧
        (∀ j rho l, j < nJ → rho < nRho → l < nL →
          obj.getD (posG nJ nRho nL j rho l) 0 = -(getZero d "alpha_0" [])) ∧
        (∀ j rho l, j < nJ → rho < nRho → l < nL →
          obj.getD (posZ nJ nRho nL j rho l) 0 = getZero d "alpha_1" []) ∧
        (∀ p, p < (plannerRI nJ nRho nL).get_row_len →
          (¬ ∃ j, j < nJ ∧ ∃ rho, rho < nRho ∧ ∃ l, l < nL ∧
            p = posG nJ nRho nL j rho l) →
          (¬ ∃ j, j < nJ ∧ ∃ rho, rho < nRho ∧ ∃ l, l < nL ∧
            p = posZ nJ nRho nL j rho l) →
          obj.getD p 0 = 0)) := by
  have eRow := rowLenP_eq nJ nRho nL
  constructor
  · intro h
    rw [initObj]
    simp only [Option.pure_def, Option.bind_eq_bind]
    rw [if_pos h]
  · intro h0 h1
    have hcond : ¬ (misclose relTolDefault absTolObj (-(getZero d "alpha_0" [])) 0 ∨
        misclose relTolDefault absTolObj (getZero d "alpha_1" []) 0) :=
      not_or.mpr ⟨h0, h1⟩
    have hps : (allTriples nJ nRho nL).mapM (fun t => do
        let pg ← (plannerRI nJ nRho nL).get_pos "g" (eqIdx3 t.1 t.2.1 t.2.2)
        let pz ← (plannerRI nJ nRho nL).get_pos "z" (eqIdx3 t.1 t.2.1 t.2.2)
        pure [(pg, -(getZero d "alpha_0" [])), (pz, getZero d "alpha_1" [])]) =
        some ((allTriples nJ nRho nL).map fun t =>
          [(posG nJ nRho nL t.1 t.2.1 t.2.2, -(getZero d "alpha_0" [])),
           (posZ nJ nRho nL t.1 t.2.1 t.2.2, getZero d "alpha_1" [])]) := by
      apply mapM_eq_some
      intro t ht
      obtain ⟨ht1, ht2, ht3⟩ := (allTriples_mem nJ nRho nL t).mp ht
      show ((plannerRI nJ nRho nL).get_pos "g" (eqIdx3 t.1 t.2.1 t.2.2)).bind _ = _
      rw [get_pos_g nJ nRho nL t.1 t.2.1 t.2.2 ht1 ht2 ht3]
      show ((plannerRI nJ nRho nL).get_pos "z" (eqIdx3 t.1 t.2.1 t.2.2)).bind _ = _
      rw [get_pos_z nJ nRho nL t.1 t.2.1 t.2.2 ht1 ht2 ht3]
      rfl
    have heval : initObj d nJ nRho nL =
        some (applyAssignments
          (List.replicate ((plannerRI nJ nRho nL).get_row_len) (0 : ℚ))
          (((allTriples nJ nRho nL).map fun t =>
            [(posG nJ nRho nL t.1 t.2.1 t.2.2, -(getZero d "alpha_0" [])),
             (posZ nJ nRho nL t.1 t.2.1 t.2.2, getZero d "alpha_1" [])]).flatten)) := by
      rw [initObj]
      simp only [Option.pure_def, Option.bind_eq_bind] at hps ⊢
      rw [if_neg hcond, hps]
      simp only [Option.some_bind]
    have hKfst : ((((allTriples nJ nRho nL).map fun t =>
        [(posG nJ nRho nL t.1 t.2.1 t.2.2, -(getZero d "alpha_0" [])),
         (posZ nJ nRho nL t.1 t.2.1 t.2.2, getZero d "alpha_1" [])]).flatten).map
          Prod.fst) =
        (((allTriples nJ nRho nL).map fun t =>
          [posG nJ nRho nL t.1 t.2.1 t.2.2, posZ nJ nRho nL t.1 t.2.1 t.2.2]).flatten) := by
      rw [List.map_flatten, List.map_map]
      rfl
    have hndK := hKfst ▸ gzpairs_nodup nJ nRho nL
    have hkmem : ∀ a, a ∈ (((allTriples nJ nRho nL).map fun t =>
        [posG nJ nRho nL t.1 t.2.1 t.2.2, posZ nJ nRho nL t.1 t.2.1 t.2.2]).flatten) ↔
        ∃ t ∈ allTriples nJ nRho nL, a = posG nJ nRho nL t.1 t.2.1 t.2.2 ∨
          a = posZ nJ nRho nL t.1 t.2.1 t.2.2 := by
      intro a
      simp only [List.mem_flatten, List.mem_map]
      constructor
      · rintro ⟨bl, ⟨t, ht, rfl⟩, hb⟩
        exact ⟨t, ht, by simpa using hb⟩
      · rintro ⟨t, ht, hb⟩
        exact ⟨_, ⟨t, ht, rfl⟩, by simpa using hb⟩
    refine ⟨_, heval, ?_, ?_, ?_, ?_⟩
    · show (applyAssignments _ _).length = _
      rw [applyAssignments_length, List.length_replicate]
    · intro j rho l hj hrho hl
      have hr3 := rank3_lt nJ nRho nL j rho l hj hrho hl
      have heg : posG nJ nRho nL j rho l = rank3 nRho nL j rho l := rfl
      refine applyAssignments_getD_mem 0 _ _
        (posG nJ nRho nL j rho l, -(getZero d "alpha_0" [])) hndK ?_
        (by rw [List.length_replicate]
            show posG nJ nRho nL j rho l < (plannerRI nJ nRho nL).get_row_len
            omega)
      exact List.mem_flatten.mpr ⟨_, List.mem_map.mpr
        ⟨(j, rho, l), (allTriples_mem nJ nRho nL (j, rho, l)).mpr ⟨hj, hrho, hl⟩,
          rfl⟩, by simp⟩
    · intro j rho l hj hrho hl
      have hr3 := rank3_lt nJ nRho nL j rho l hj hrho hl
      have hez : posZ nJ nRho nL j rho l =
        sB nJ nRho nL + rank3 nRho nL j rho l := rfl
      refine applyAssignments_getD_mem 0 _ _
        (posZ nJ nRho nL j rho l, getZero d "alpha_1" []) hndK ?_
        (by rw [List.length_replicate]
            show posZ nJ nRho nL j rho l < (plannerRI nJ nRho nL).get_row_len
            omega)
      exact List.mem_flatten.mpr ⟨_, List.mem_map.mpr
        ⟨(j, rho, l), (allTriples_mem nJ nRho nL (j, rho, l)).mpr ⟨hj, hrho, hl⟩,
          rfl⟩, by simp⟩
    · intro p hp hng hnz
      have hnm : p ∉ ((((allTriples nJ nRho nL).map fun t =>
          [(posG nJ nRho nL t.1 t.2.1 t.2.2, -(getZero d "alpha_0" [])),
           (posZ nJ nRho nL t.1 t.2.1 t.2.2, getZero d "alpha_1" [])]).flatten).map
            Prod.fst) := by
        rw [hKfst]
        intro hmem
        obtain ⟨t, ht, hb⟩ := (hkmem p).mp hmem
        obtain ⟨ht1, ht2, ht3⟩ := (allTriples_mem nJ nRho nL t).mp ht
        rcases hb with rfl | rfl
        · exact hng ⟨t.1, ht1, t.2.1, ht2, t.2.2, ht3, rfl⟩
        · exact hnz ⟨t.1, ht1, t.2.1, ht2, t.2.2, ht3, rfl⟩
      rw [applyAssignments_getD_not_mem 0 _ _ p hnm]
      rcases Nat.lt_or_ge p ((plannerRI nJ nRho nL).get_row_len) with h | h
      · simp [List.getD_eq_getElem?_getD, List.getElem?_replicate, h]
      · simp [List.getD_eq_getElem?_getD, List.getElem?_replicate, Nat.not_lt.mpr h]

theorem c5_objective_witness :
    (misclose relTolDefault absTolObj (-(getZero c4Store "alpha_0" [])) 0 ∨
     misclose relTolDefault absTolObj (getZero c4Store "alpha_1" []) 0) ∧
    initObj c4Store 1 1 1 = none := by
  have hz : getZero c4Store "alpha_0" [] = 0 := by decide
  have h : misclose relTolDefault absTolObj (-(getZero c4Store "alpha_0" [])) 0 := by
    rw [hz]
    unfold misclose relTolDefault absTolObj
    norm_num
  exact ⟨Or.inl h, (c5_objective c4Store 1 1 1).1 (Or.inl h)⟩

/-- C6: when the two weights sum exactly to `1`, `quality` returns
`alpha_0 * (sum of processed amounts) - alpha_1 * (sum of dropped amounts)`;
with weights `1, 0` it is the total processed amount and with weights `0, 1`
the negated total dropped amount; it fails (assertion) exactly when the sum
of the weights is not within `math.isclose` default tolerance of `1` — not
whenever the sum differs from `1`, as the spec states. -/
theorem c6_quality (a0 a1 : ℚ) (processed dropped : List ℚ) :
    (a0 + a1 = 1 →
      quality a0 a1 processed dropped =
        some (a0 * processed.sum - a1 * dropped.sum)) ∧
    (quality 1 0 processed dropped = some processed.sum) ∧
    (quality 0 1 processed dropped = some (-dropped.sum)) ∧
    (¬ misclose relTolDefault 0 (a0 + a1) 1 →
      quality a0 a1 processed dropped = none) := by
  have hone : misclose relTolDefault 0 (1 : ℚ) 1 := by
    unfold misclose relTolDefault
    norm_num
  refine ⟨?_, ?_, ?_, ?_⟩
  · intro h
    unfold quality
    rw [h, if_pos hone]
  · unfold quality
    rw [show (1 : ℚ) + 0 = 1 by norm_num, if_pos hone]
    norm_num
  · unfold quality
    rw [show (0 : ℚ) + 1 = 1 by norm_num, if_pos hone]
    norm_num
  · intro h
    unfold quality
    rw [if_neg h]

theorem c6_quality_witness :
    ((1 : ℚ) / 2 + 1 / 2 = 1 ∧
      quality (1 / 2) (1 / 2) [3] [4] =
        some ((1 / 2) * List.sum [3] - (1 / 2) * List.sum [4])) ∧
    (¬ misclose relTolDefault 0 ((1 : ℚ) + 1) 1 ∧
      quality 1 1 [3] [4] = none) := by
  have h1 : (1 : ℚ) / 2 + 1 / 2 = 1 := by norm_num
  have h2 : ¬ misclose relTolDefault 0 ((1 : ℚ) + 1) 1 := by
    unfold misclose relTolDefault
    rw [show |(1 : ℚ) + 1 - 1| = 1 by norm_num]
    norm_num
  exact ⟨⟨h1, (c6_quality (1 / 2) (1 / 2) [3] [4]).1 h1⟩,
    ⟨h2, (c6_quality 1 1 [3] [4]).2.2.2 h2⟩⟩

/-- C6 counterexample: weights `1` and `10 ^ (-12)` do not sum to `1`, yet
`quality` succeeds, because the code only asserts `math.isclose` of the sum
to `1` (relative tolerance `10 ^ (-9)`). -/
theorem c6_counterexample :
    (1 : ℚ) + 1 / 1000000000000 ≠ 1 ∧
    quality 1 (1 / 1000000000000) [3] [4] ≠ none := by
  constructor
  · norm_num
  · have h : misclose relTolDefault 0 ((1 : ℚ) + 1 / 1000000000000) 1 := by
      unfold misclose relTolDefault
      rw [show |(1 : ℚ) + 1 / 1000000000000 - 1| = 1 / 1000000000000 by norm_num]
      rw [show |(1 : ℚ) + 1 / 1000000000000| = 1 + 1 / 1000000000000 by norm_num]
      rw [show |(1 : ℚ)| = 1 by norm_num]
      rw [show max ((1 : ℚ) + 1 / 1000000000000) 1 = 1 + 1 / 1000000000000 by
        rw [max_eq_left]
        norm_num]
      rw [le_max_iff]
      left
      norm_num
    unfold quality
    rw [if_pos h]
    exact Option.some_ne_none _

theorem simLAux_eq_findIdx (t : ℚ) (tl : List ℚ) : ∀ (acc : ℚ) (n : Nat),
    simLAux t acc n tl = (tlBoundsAux acc tl).findIdx? (fun b => decide (t < b)) n := by
  induction tl with
  | nil => intro acc n; rfl
  | cons d rest ih =>
    intro acc n
    simp only [tlBoundsAux, List.findIdx?_cons, simLAux, decide_eq_true_eq]
    by_cases h : t < acc + d
    · rw [if_pos h, if_pos h]
    · rw [if_neg h, if_neg h, ih (acc + d) (n + 1)]

theorem simL_eq_t_to_l (tl : List ℚ) (t : ℚ) : simL tl t = t_to_l tl t := by
  rw [simL, t_to_l, tlBounds, simLAux_eq_findIdx]

theorem simLAux_spec (t : ℚ) (tl : List ℚ) : ∀ (acc : ℚ) (n : Nat),
    (∀ d ∈ tl, (0:ℚ) ≤ d) → acc ≤ t →
    (t < acc + tl.sum →
      ∃ l, l < tl.length ∧ simLAux t acc n tl = some (n + l) ∧
        t < acc + (tl.take (l + 1)).sum ∧
        ∀ k, k < l → acc + (tl.take (k + 1)).sum ≤ t) ∧
    (acc + tl.sum ≤ t → simLAux t acc n tl = none) := by
  induction tl with
  | nil =>
    intro acc n _ hacc
    refine ⟨fun h => absurd h (by simp only [List.sum_nil, add_zero]; linarith), fun _ => rfl⟩
  | cons d rest ih =>
    intro acc n hnn hacc
    have hd : (0:ℚ) ≤ d := hnn d (List.mem_cons_self d rest)
    have hrest : ∀ x ∈ rest, (0:ℚ) ≤ x := fun x hx => hnn x (List.mem_cons_of_mem d hx)
    have hrsum : (0:ℚ) ≤ rest.sum := List.sum_nonneg hrest
    constructor
    · intro hlt
      by_cases h : t < acc + d
      · refine ⟨0, Nat.succ_pos _, ?_, ?_, ?_⟩
        · rw [simLAux, if_pos h, Nat.add_zero]
        · simpa using h
        · intro k hk
          exact absurd hk (Nat.not_lt_zero k)
      · push_neg at h
        rw [List.sum_cons] at hlt
        have hlt' : t < (acc + d) + rest.sum := by linarith
        obtain ⟨l, hl, he, hb, hmin⟩ := (ih (acc + d) (n + 1) hrest h).1 hlt'
        refine ⟨l + 1, by simpa using Nat.succ_lt_succ hl, ?_, ?_, ?_⟩
        · rw [simLAux, if_neg (not_lt.mpr h), he]
          congr 1
          omega
        · rw [List.take_succ_cons, List.sum_cons]
          linarith
        · intro k hk
          cases k with
          | zero => simpa using h
          | succ k' =>
            have hm := hmin k' (by omega)
            rw [List.take_succ_cons, List.sum_cons]
            linarith
    · intro hge
      rw [List.sum_cons] at hge
      have hnd : ¬ t < acc + d := by push_neg; linarith
      rw [simLAux, if_neg hnd]
      exact (ih (acc + d) (n + 1) hrest (by linarith)).2 (by linarith)

/-- C9: over nonnegative interval durations, for `0 ≤ t` below the total
duration `Σ_k tl[k]` the lookup `t_to_l` returns the smallest `l` with
`t < Σ_{k≤l} tl[k]`, and once `t` reaches the total duration it returns
`none`; `Simulation.l` of `sim/sim.py` computes the same function. -/
theorem c9_interval_lookup (tl : List ℚ) (t : ℚ)
    (hnn : ∀ d ∈ tl, (0:ℚ) ≤ d) (ht : 0 ≤ t) :
    simL tl t = t_to_l tl t ∧
    (t < tlDuration tl →
      ∃ l, l < tl.length ∧ t_to_l tl t = some l ∧
        t < (tl.take (l + 1)).sum ∧
        ∀ k, k < l → (tl.take (k + 1)).sum ≤ t) ∧
    (tlDuration tl ≤ t → t_to_l tl t = none) := by
  have hspec := simLAux_spec t tl 0 0 hnn ht
  simp only [zero_add] at hspec
  refine ⟨simL_eq_t_to_l tl t, ?_, ?_⟩
  · intro hlt
    obtain ⟨l, h1, h2, h3, h4⟩ := hspec.1 hlt
    exact ⟨l, h1, by rw [← simL_eq_t_to_l]; exact h2, h3, h4⟩
  · intro hge
    rw [← simL_eq_t_to_l]
    exact hspec.2 hge

theorem c9_interval_lookup_witness :
    (∀ d ∈ ([2, 3] : List ℚ), (0:ℚ) ≤ d) ∧ ((0:ℚ) ≤ 4) ∧
    simL [2, 3] (4 : ℚ) = t_to_l [2, 3] (4 : ℚ) := by
  have hnn : ∀ d ∈ ([2, 3] : List ℚ), (0:ℚ) ≤ d := by
    intro d hd
    simp only [List.mem_cons, List.not_mem_nil, or_false] at hd
    rcases hd with rfl | rfl <;> norm_num
  exact ⟨hnn, by norm_num, (c9_interval_lookup [2, 3] 4 hnn (by norm_num)).1⟩

theorem clamp_nonneg_le (u v : ℚ) (hv : 0 ≤ v) :
    0 ≤ clamp u 0 v ∧ clamp u 0 v ≤ v := by
  unfold clamp
  exact ⟨le_max_left 0 _, max_le hv (min_le_right u v)⟩

theorem generateStep_bounds (planned u : ℚ) (s : GenState)
    (h1 : 0 ≤ s.amount_processed) (h2 : s.amount_processed ≤ planned) :
    0 ≤ (generateStep planned u s).amount_processed ∧
    (generateStep planned u s).amount_processed ≤ planned ∧
    s.amount_processed ≤ (generateStep planned u s).amount_processed := by
  obtain ⟨hc0, hcv⟩ := clamp_nonneg_le u (planned - s.amount_processed) (by linarith)
  refine ⟨?_, ?_, ?_⟩
  · show 0 ≤ s.amount_processed + clamp u 0 (planned - s.amount_processed)
    linarith
  · show s.amount_processed + clamp u 0 (planned - s.amount_processed) ≤ planned
    linarith
  · show s.amount_processed ≤ s.amount_processed + clamp u 0 (planned - s.amount_processed)
    linarith

theorem generateIter_succ (planned u : ℚ) : ∀ (n : Nat) (s : GenState),
    generateIter planned u (n + 1) s =
      generateStep planned u (generateIter planned u n s) := by
  intro n
  induction n with
  | zero => intro s; rfl
  | succ n ih =>
    intro s
    show generateIter planned u (n + 1) (generateStep planned u s) = _
    rw [ih (generateStep planned u s)]
    rfl

theorem generateIter_inv (planned u : ℚ) :
    ∀ (n : Nat) (s : GenState), 0 ≤ s.amount_processed →
      s.amount_processed ≤ planned →
      0 ≤ (generateIter planned u n s).amount_processed ∧
      (generateIter planned u n s).amount_processed ≤ planned := by
  intro n
  induction n with
  | zero => intro s h1 h2; exact ⟨h1, h2⟩
  | succ n ih =>
    intro s h1 h2
    obtain ⟨a, b, _⟩ := generateStep_bounds planned u s h1 h2
    exact ih (generateStep planned u s) a b

/-- C10: starting from zero processed amount, a `GenerateOp` with nonnegative
planned amount and step intensity `amount_planned / tl[l]` keeps
`0 ≤ amount_processed ≤ amount_planned` after every number of steps,
`amount_processed` never decreases, and each step sets the input container to
exactly `clamp(upper, 0, planned - processed)` while adding the same quantity
to `amount_processed`. -/
theorem c10_generate_invariant (planned tlv u : ℚ) (hp : 0 ≤ planned)
    (hu : u = intensity_upper_generate planned tlv)
    (s : GenState) (h0 : s.amount_processed = 0) (n : Nat) :
    0 ≤ (generateIter planned u n s).amount_processed ∧
    (generateIter planned u n s).amount_processed ≤ planned ∧
    (generateIter planned u n s).amount_processed ≤
      (generateIter planned u (n + 1) s).amount_processed ∧
    generateIter planned u (n + 1) s =
      { amount_processed := (generateIter planned u n s).amount_processed +
          clamp u 0 (planned - (generateIter planned u n s).amount_processed),
        container := clamp u 0 (planned - (generateIter planned u n s).amount_processed) } := by
  have hb := generateIter_inv planned u n s (by rw [h0]) (by rw [h0]; exact hp)
  obtain ⟨_, _, hmono⟩ :=
    generateStep_bounds planned u (generateIter planned u n s) hb.1 hb.2
  refine ⟨hb.1, hb.2, ?_, ?_⟩
  · rw [generateIter_succ]
    exact hmono
  · rw [generateIter_succ]
    rfl

theorem c10_generate_invariant_witness :
    ((0:ℚ) ≤ 10) ∧ ((5:ℚ) = intensity_upper_generate 10 2) ∧
    ((⟨0, 0⟩ : GenState).amount_processed = 0) ∧
    (0 ≤ (generateIter 10 5 1 ⟨0, 0⟩).amount_processed ∧
     (generateIter 10 5 1 ⟨0, 0⟩).amount_processed ≤ 10 ∧
     (generateIter 10 5 1 ⟨0, 0⟩).amount_processed ≤
       (generateIter 10 5 2 ⟨0, 0⟩).amount_processed ∧
     generateIter 10 5 2 ⟨0, 0⟩ =
       { amount_processed := (generateIter 10 5 1 ⟨0, 0⟩).amount_processed +
           clamp 5 0 (10 - (generateIter 10 5 1 ⟨0, 0⟩).amount_processed),
         container := clamp 5 0 (10 - (generateIter 10 5 1 ⟨0, 0⟩).amount_processed) }) := by
  have hp : (0:ℚ) ≤ 10 := by norm_num
  have hu : (5:ℚ) = intensity_upper_generate 10 2 := by
    unfold intensity_upper_generate
    norm_num
  exact ⟨hp, hu, rfl, c10_generate_invariant 10 2 5 hp hu ⟨0, 0⟩ rfl 1⟩
